import Mathlib

/-
  Verification of the clean_media subtitle-normalization pipeline
  (src/clean_media/clean_media.py).

  Modelling conventions:
  * A filesystem path is a list of characters (the Python code manipulates
    paths as strings via str.replace, which replaces every occurrence of a
    pattern, scanning left to right).  String literals are written as
    explicit character lists.
  * The filesystem is a pair of association lists: files (path, size in
    bytes) and directories (paths).  Glob patterns of the form **/*SUFFIX
    with a slash-free SUFFIX match exactly the files whose path ends with
    SUFFIX, in traversal (list) order; each for-loop over a glob is
    modelled as a snapshot of the matches taken when the loop starts.
  * Fallible filesystem operations (rename, unlink, stat, rmdir) return
    Except: rename fails when the source is missing or the parent
    directory of the destination does not exist (POSIX os.rename), and
    otherwise silently replaces an existing destination file; unlink and
    stat fail on a missing file; rmdir fails exactly on a non-empty
    directory.  The only error handler in the source is the try/except
    around rmdir in delete_empty_directories.
  * The comparison forced_size > orig_size * 0.4 is modelled exactly over
    the integers as 2 * orig_size < 5 * forced_size; for file sizes the
    IEEE double computation in Python agrees with the exact comparison.
-/

namespace CleanMedia

/-- A filesystem path, as the list of characters of the Python path string. -/
abbrev Path := List Char

/-- The character-list form of the literal ".srt". -/
def srtTail : Path := ['.', 's', 'r', 't']

/-- The two-letter language tag "en". -/
def langEn : Path := ['e', 'n']

/-- The three-letter language tag "eng". -/
def langEng : Path := ['e', 'n', 'g']

/-- The pattern ".1.LANG.srt" marking a variant-1 (original) subtitle file. -/
def m1 (lang : Path) : Path := ['.', '1', '.'] ++ lang ++ srtTail

/-- The pattern ".2.LANG.srt" marking a variant-2 (forced) subtitle file. -/
def m2 (lang : Path) : Path := ['.', '2', '.'] ++ lang ++ srtTail

/-- The canonical original suffix ".eng.srt". -/
def engSrt : Path := ['.', 'e', 'n', 'g'] ++ srtTail

/-- The canonical forced suffix ".eng.forced.srt". -/
def engForcedSrt : Path := ['.', 'e', 'n', 'g', '.', 'f', 'o', 'r', 'c', 'e', 'd'] ++ srtTail

/-- The two-letter suffix ".en.srt" handled by rename_en_to_eng_subs. -/
def enSrt : Path := ['.', 'e', 'n'] ++ srtTail

/-- The ".nfo" extension. -/
def nfoExt : Path := ['.', 'n', 'f', 'o']

/-- The ".txt" extension. -/
def txtExt : Path := ['.', 't', 'x', 't']

/-- Python str.replace: replace every occurrence of pat, scanning left to
right, non-overlapping.  The fuel argument bounds the recursion; fuel equal
to the length of the string suffices for a non-empty pattern. -/
def replaceAllFuel : Nat → Path → Path → Path → Path
  | 0, string, _, _ => string
  | _ + 1, [], _, _ => []
  | fuel + 1, c :: cs, pat, rep =>
    if pat ≠ [] ∧ pat.isPrefixOf (c :: cs) then
      rep ++ replaceAllFuel fuel ((c :: cs).drop pat.length) pat rep
    else
      c :: replaceAllFuel fuel cs pat rep

/-- Python str.replace (all patterns used by the program are non-empty). -/
def replaceAll (string pat rep : Path) : Path :=
  replaceAllFuel string.length string pat rep

/-- Filesystem state: the files (with sizes) and directories below the
content-directory root.  The root directory itself is listed in dirs. -/
structure St where
  files : List (Path × Nat)
  dirs : List Path
deriving DecidableEq

/-- Filesystem errors surfaced by the modelled operations. -/
inductive FsErr where
  /-- rename: the parent directory of the destination does not exist. -/
  | renameNoParent (src dst : Path) : FsErr
  /-- stat, unlink or rename applied to a missing file. -/
  | missing (p : Path) : FsErr
  /-- rmdir applied to a non-empty directory. -/
  | notEmpty (d : Path) : FsErr
deriving DecidableEq

/-- The parent directory of a path: everything before the final slash, or
none when the path has no slash (an entry directly in the root). -/
def parentOf (p : Path) : Option Path :=
  if p.contains '/' then
    some ((p.reverse.dropWhile (fun c => c ≠ '/')).reverse.dropLast)
  else none

/-- Does a file exist at path p (pathlib Path.exists on a file path)? -/
def fsExists (st : St) (p : Path) : Bool :=
  st.files.any (fun e => e.1 == p)

/-- The parent of p exists as a directory (the root always exists). -/
def parentExists (st : St) (p : Path) : Bool :=
  match parentOf p with
  | none => true
  | some d => st.dirs.contains d

/-- stat().st_size of the file at p. -/
def statSize (st : St) (p : Path) : Except FsErr Nat :=
  match st.files.find? (fun e => e.1 == p) with
  | some e => Except.ok e.2
  | none => Except.error (FsErr.missing p)

/-- POSIX os.rename / os.replace (pathlib Path.rename, Path.replace): moves
src to dst, silently replacing any existing file at dst; fails when src is
missing or when the parent directory of dst does not exist. -/
def fsRename (st : St) (src dst : Path) : Except FsErr St :=
  match st.files.find? (fun e => e.1 == src) with
  | none => Except.error (FsErr.missing src)
  | some e =>
    if parentExists st dst then
      Except.ok
        ⟨(st.files.filter (fun f => !(f.1 == dst))).map
            (fun f => if f.1 == src then (dst, e.2) else f),
          st.dirs⟩
    else Except.error (FsErr.renameNoParent src dst)

/-- pathlib Path.unlink: delete the file at p, failing when it is missing. -/
def fsUnlink (st : St) (p : Path) : Except FsErr St :=
  if fsExists st p then
    Except.ok ⟨st.files.filter (fun f => !(f.1 == p)), st.dirs⟩
  else Except.error (FsErr.missing p)

/-- A directory d is empty: it has no direct file entry and no direct
subdirectory. -/
def isEmptyDir (st : St) (d : Path) : Bool :=
  st.files.all (fun e => !(parentOf e.1 == some d)) &&
    st.dirs.all (fun x => !(parentOf x == some d))

/-- os.rmdir: remove directory d, failing (OSError) when it is not empty. -/
def fsRmdir (st : St) (d : Path) : Except FsErr St :=
  if isEmptyDir st d then
    Except.ok ⟨st.files, st.dirs.filter (fun x => !(x == d))⟩
  else Except.error (FsErr.notEmpty d)

/-- Run a fallible per-file action over a list of paths, stopping at the
first error (a raised exception aborts the Python for-loop). -/
def runList (step : St → Path → Except FsErr St) : St → List Path → Except FsErr St
  | st, [] => Except.ok st
  | st, p :: rest =>
    match step st p with
    | Except.ok st2 => runList step st2 rest
    | Except.error e => Except.error e

/-- The paths of the files of st matching the glob **/*SUFFIX, in traversal
order (the loop body never creates or removes other matches of the same
glob, so the snapshot agrees with the lazy pathlib iterator). -/
def globSuffix (st : St) (suffix : Path) : List Path :=
  (st.files.filter (fun e => suffix.isSuffixOf e.1)).map (fun e => e.1)

/-- The body of the inner loop of rename_forced_subs for one discovered
variant-1 file: rename it to the canonical ".eng.srt" name, then, if the
".2.LANG.srt" sibling computed from the pre-rename path exists, delete it
(forced_size >= orig_size), leave it (forced_size > orig_size * 0.4, the
warning branch), or rename it to the canonical ".eng.forced.srt" name. -/
def processOrig (lang : Path) (st : St) (origFile : Path) : Except FsErr St :=
  match fsRename st origFile (replaceAll origFile (m1 lang) engSrt) with
  | Except.error e => Except.error e
  | Except.ok st1 =>
    let renamed := replaceAll origFile (m1 lang) engSrt
    let forcedFile := replaceAll origFile (m1 lang) (m2 lang)
    if fsExists st1 forcedFile then
      match statSize st1 forcedFile with
      | Except.error e => Except.error e
      | Except.ok forcedSize =>
        match statSize st1 renamed with
        | Except.error e => Except.error e
        | Except.ok origSize =>
          if origSize ≤ forcedSize then
            fsUnlink st1 forcedFile
          else if 2 * origSize < 5 * forcedSize then
            Except.ok st1
          else
            fsRename st1 forcedFile (replaceAll forcedFile (m2 lang) engForcedSrt)
    else Except.ok st1

/-- One language iteration of rename_forced_subs: process every file
matching **/*.1.LANG.srt. -/
def renameForcedLang (lang : Path) (st : St) : Except FsErr St :=
  runList (processOrig lang) st (globSuffix st (m1 lang))

/-- rename_forced_subs: the subtitle classification engine, run for the
language tags "en" then "eng". -/
def rename_forced_subs (st : St) : Except FsErr St :=
  match renameForcedLang langEn st with
  | Except.ok st1 => renameForcedLang langEng st1
  | Except.error e => Except.error e

/-- The body of the loop of rename_en_to_eng_subs for one ".en.srt" file:
delete it when its ".eng.srt" equivalent exists, else rename it. -/
def processEn (st : St) (enFile : Path) : Except FsErr St :=
  let engFile := replaceAll enFile enSrt engSrt
  if fsExists st engFile then fsUnlink st enFile
  else fsRename st enFile engFile

/-- rename_en_to_eng_subs: process every file matching **/*.en.srt. -/
def rename_en_to_eng_subs (st : St) : Except FsErr St :=
  runList processEn st (globSuffix st enSrt)

/-- delete_nfo_and_txt_files: unlink every **/*.nfo file, then every
**/*.txt file. -/
def delete_nfo_and_txt_files (st : St) : Except FsErr St :=
  match runList (fun s p => fsUnlink s p) st (globSuffix st nfoExt) with
  | Except.error e => Except.error e
  | Except.ok st1 => runList (fun s p => fsUnlink s p) st1 (globSuffix st1 txtExt)

/-- Number of slashes in a path; directories deeper in the tree have
strictly more slashes. -/
def depth (p : Path) : Nat := p.countP (fun c => c == '/')

/-- Insert a directory into a list kept in weakly decreasing depth order. -/
def insertByDepth (d : Path) : List Path → List Path
  | [] => [d]
  | x :: xs => if depth x ≤ depth d then d :: x :: xs else x :: insertByDepth d xs

/-- The directories sorted by weakly decreasing depth: a linearization of
os.walk(topdown=False), which yields every directory after all of its
descendants and yields the root last. -/
def walkBottomUp (dirs : List Path) : List Path :=
  dirs.foldr insertByDepth []

/-- os.rmdir wrapped in the try/except OSError of delete_empty_directories:
a failed removal (non-empty directory) leaves the state unchanged. -/
def tryRmdir (st : St) (d : Path) : St :=
  match fsRmdir st d with
  | Except.ok st2 => st2
  | Except.error _ => st

/-- The loop of delete_empty_directories: walk bottom-up, breaking at the
content-directory root, and try to remove each directory. -/
def pruneLoop (root : Path) : List Path → St → St
  | [], st => st
  | d :: rest, st =>
    if d = root then st
    else pruneLoop root rest (tryRmdir st d)

/-- delete_empty_directories: remove the empty directories below root,
bottom-up; removal failures are swallowed. -/
def delete_empty_directories (root : Path) (st : St) : St :=
  pruneLoop root (walkBottomUp st.dirs) st

/-- main: the full cleanup pipeline for one content directory. -/
def mainRun (root : Path) (st : St) : Except FsErr St :=
  match rename_forced_subs st with
  | Except.error e => Except.error e
  | Except.ok st1 =>
    match rename_en_to_eng_subs st1 with
    | Except.error e => Except.error e
    | Except.ok st2 =>
      match delete_nfo_and_txt_files st2 with
      | Except.error e => Except.error e
      | Except.ok st3 => Except.ok (delete_empty_directories root st3)

/-! Specification-side vocabulary used to state the claims. -/

/-- The pattern pat occurs in the string s at position i. -/
def occursAt (pat s : Path) (i : Nat) : Prop := pat <+: s.drop i

/-- Every occurrence of pat in s is the final suffix occurrence: str.replace
then touches only the filename tail. -/
def onlySuffix (pat s : Path) : Prop :=
  ∀ i, occursAt pat s i → i + pat.length = s.length

/-- Executable check for onlySuffix. -/
def onlySuffixB (pat s : Path) : Bool :=
  (List.range (s.length + 1)).all
    (fun i => !(pat.isPrefixOf (s.drop i)) || (i + pat.length == s.length))

/-- Every nonempty proper tail of q that is a prefix of r reaches exactly to
the end of r: an occurrence of q straddling the boundary of b ++ r can then
only be the final suffix occurrence. -/
def noSpan (q r : Path) : Bool :=
  (List.range q.length).all (fun j =>
    (j == 0) || (q.length - j == r.length) || !((q.drop j).isPrefixOf r))

/-- A well-formed subtitle-related file name: each of the five pattern
strings occurs in it only as its final suffix, and the stem before a
variant-1 marker does not itself end in ".1". -/
def SafeN (p : Path) : Prop :=
  onlySuffix (m1 langEn) p ∧ onlySuffix (m1 langEng) p ∧
  onlySuffix (m2 langEn) p ∧ onlySuffix (m2 langEng) p ∧
  onlySuffix enSrt p ∧
  ¬ (('.' :: '1' :: m1 langEn) <:+ p) ∧ ¬ (('.' :: '1' :: m1 langEng) <:+ p)

/-- A file name created by one of the renaming passes: the canonical
".eng.srt" name of a stem that does not end in ".1", or a canonical
".eng.forced.srt" name. -/
def CreatedForm (p : Path) : Prop :=
  (∃ b2, p = b2 ++ engSrt ∧ ¬ (['.', '1'] <:+ b2)) ∨ (∃ b2, p = b2 ++ engForcedSrt)

/-- The file paths of a state. -/
def keys (st : St) : List Path := st.files.map (fun e => e.1)

/-- Each file path occurs at most once (a real filesystem). -/
def keysNodup (st : St) : Prop := (keys st).Nodup

/-- The size recorded for the file at p, if present. -/
def sizeAt (st : St) (p : Path) : Option Nat :=
  (st.files.find? (fun e => e.1 == p)).map (fun e => e.2)

/-- The path x lies strictly below the directory d. -/
def below (d x : Path) : Prop := d ++ ['/'] <+: x

instance (d x : Path) : Decidable (below d x) :=
  inferInstanceAs (Decidable (d ++ ['/'] <+: x))

/-- Some file of st lies (at any depth) below the directory d. -/
def hasFileBelow (st : St) (d : Path) : Prop :=
  ∃ e ∈ st.files, below d e.1

/-- A path contains no slash (e.g. a glob suffix within one component). -/
def noSlash (x : Path) : Bool := x.all (fun c => !(c == '/'))

/-- The files list of the state produced by a successful rename of src to
dst, where n is the size stored under src. -/
def renamedFiles (l : List (Path × Nat)) (src dst : Path) (n : Nat) :
    List (Path × Nat) :=
  (l.filter (fun f => !(f.1 == dst))).map (fun f => if f.1 == src then (dst, n) else f)

/-- The state after a successful rename of src to dst (size n at src). -/
def afterRename (st : St) (src dst : Path) (n : Nat) : St :=
  ⟨renamedFiles st.files src dst n, st.dirs⟩

/-- The state after a successful unlink of p. -/
def afterUnlink (st : St) (p : Path) : St :=
  ⟨st.files.filter (fun f => !(f.1 == p)), st.dirs⟩

instance : DecidableEq (Except FsErr St) := fun a b =>
  match a, b with
  | Except.ok x, Except.ok y => decidable_of_iff (x = y) (by simp)
  | Except.error x, Except.error y => decidable_of_iff (x = y) (by simp)
  | Except.ok _, Except.error _ => isFalse (fun hc => Except.noConfusion hc)
  | Except.error _, Except.ok _ => isFalse (fun hc => Except.noConfusion hc)

/-- Stem "R/m" of the concrete example group used in the test states. -/
def exStem : Path := ['R', '/', 'm']

/-- The concrete example content-directory root "R". -/
def exRoot : Path := ['R']

/-! String lemmas about occurrences and replaceAll. -/

lemma occursAt_length_le {pat s : Path} {i : Nat} (hne : pat ≠ [])
    (h : occursAt pat s i) : i + pat.length ≤ s.length := by
  have hlen : pat.length ≤ (s.drop i).length := h.length_le
  have hpos : 0 < pat.length := List.length_pos.mpr hne
  rw [List.length_drop] at hlen
  omega

lemma onlySuffix_of_B {pat s : Path} (hne : pat ≠ []) (h : onlySuffixB pat s = true) :
    onlySuffix pat s := by
  intro i hocc
  have hle : i + pat.length ≤ s.length := occursAt_length_le hne hocc
  have hpos : 0 < pat.length := List.length_pos.mpr hne
  have hi : i < s.length + 1 := by omega
  have hall := List.all_eq_true.mp h i (List.mem_range.mpr hi)
  rcases Bool.or_eq_true_iff.mp hall with hb | hb
  · exfalso
    rw [Bool.not_eq_eq_eq_not, Bool.not_true] at hb
    exact absurd (List.isPrefixOf_iff_prefix.mpr hocc) (by simp [hb])
  · simpa using hb

lemma replaceAllFuel_nil (f : Nat) (pat rep : Path) :
    replaceAllFuel f [] pat rep = [] := by
  cases f <;> rfl

lemma replaceAllFuel_cons (f : Nat) (c : Char) (cs pat rep : Path) :
    replaceAllFuel (f + 1) (c :: cs) pat rep =
      if pat ≠ [] ∧ pat.isPrefixOf (c :: cs) then
        rep ++ replaceAllFuel f ((c :: cs).drop pat.length) pat rep
      else c :: replaceAllFuel f cs pat rep := rfl

lemma replaceAll_of_onlySuffix {pat : Path} (hne : pat ≠ []) :
    ∀ (b : Path), onlySuffix pat (b ++ pat) →
      ∀ rep, replaceAll (b ++ pat) pat rep = b ++ rep := by
  intro b
  induction b with
  | nil =>
    intro _ rep
    rcases pat with _ | ⟨c, cs⟩
    · exact absurd rfl hne
    · show replaceAllFuel (c :: cs).length ([] ++ c :: cs) (c :: cs) rep = [] ++ rep
      rw [List.nil_append, List.length_cons, replaceAllFuel_cons]
      rw [if_pos ⟨hne, List.isPrefixOf_iff_prefix.mpr List.prefix_rfl⟩]
      simp [replaceAllFuel_nil]
  | cons c b2 ih =>
    intro hsuf rep
    show replaceAllFuel (c :: (b2 ++ pat)).length (c :: (b2 ++ pat)) pat rep =
      c :: (b2 ++ rep)
    rw [List.length_cons, replaceAllFuel_cons]
    rw [if_neg]
    · have ih2 : replaceAll (b2 ++ pat) pat rep = b2 ++ rep := by
        apply ih
        intro i hocc
        have hocc2 : occursAt pat (c :: (b2 ++ pat)) (i + 1) := by
          simpa [occursAt, List.drop_succ_cons] using hocc
        have heq := hsuf (i + 1) hocc2
        simp only [List.length_cons, List.length_append] at heq ⊢
        omega
      exact congrArg (fun t => c :: t) ih2
    · rintro ⟨-, hpre⟩
      have hocc0 : occursAt pat (c :: (b2 ++ pat)) 0 := by
        simpa [occursAt] using List.isPrefixOf_iff_prefix.mp hpre
      have heq := hsuf 0 hocc0
      have hpos : 0 < pat.length := List.length_pos.mpr hne
      simp only [Nat.zero_add, List.length_cons, List.length_append] at heq
      omega

lemma no_occ_in_stem {q pat b : Path} (hpat : pat ≠ [])
    (h : onlySuffix q (b ++ pat)) : ∀ i, ¬ occursAt q b i := by
  intro i hocc
  rcases eq_or_ne q [] with hq | hq
  · subst hq
    have h1 := h ((b ++ pat).length + 1) List.nil_prefix
    simp at h1
  have hle : i + q.length ≤ b.length := occursAt_length_le hq hocc
  have hib : i ≤ b.length := le_trans (Nat.le_add_right i q.length) hle
  have hocc2 : occursAt q (b ++ pat) i := by
    unfold occursAt
    rw [List.drop_append_eq_append_drop, Nat.sub_eq_zero_of_le hib, List.drop_zero]
    exact hocc.trans (List.prefix_append _ _)
  have heq := h i hocc2
  have hplen : 0 < pat.length := List.length_pos.mpr hpat
  rw [List.length_append] at heq
  omega

lemma onlySuffix_append {q b r : Path}
    (hb : ∀ i, ¬ occursAt q b i) (hspan : noSpan q r = true)
    (hr : onlySuffix q r) : onlySuffix q (b ++ r) := by
  intro i hocc
  rcases le_or_lt b.length i with hbi | hbi
  · have hocc2 : occursAt q r (i - b.length) := by
      unfold occursAt at hocc ⊢
      rwa [List.drop_append_eq_append_drop,
        List.drop_eq_nil_of_le hbi, List.nil_append] at hocc
    have := hr _ hocc2
    rw [List.length_append]
    omega
  · rcases le_or_lt (i + q.length) b.length with hqb | hqb
    · exfalso
      refine hb i ?_
      unfold occursAt at hocc ⊢
      rw [List.drop_append_eq_append_drop, Nat.sub_eq_zero_of_le (le_of_lt hbi),
        List.drop_zero] at hocc
      rw [List.prefix_iff_eq_take] at hocc ⊢
      rw [List.take_append_of_le_length (by rw [List.length_drop]; omega)] at hocc
      exact hocc
    · obtain ⟨t, ht⟩ := hocc
      rw [List.drop_append_eq_append_drop, Nat.sub_eq_zero_of_le (le_of_lt hbi),
        List.drop_zero] at ht
      have hdlen : (b.drop i).length = b.length - i := List.length_drop _ _
      have hj1 : b.length - i < q.length := by omega
      have hj0 : 0 < b.length - i := by omega
      have hdrop : q.drop (b.length - i) <+: r := by
        have h2 := congrArg (List.drop (b.length - i)) ht
        rw [List.drop_append_eq_append_drop, List.drop_append_eq_append_drop,
          Nat.sub_eq_zero_of_le (le_of_lt hj1), List.drop_zero,
          hdlen, Nat.sub_self, List.drop_zero,
          List.drop_eq_nil_of_le (le_of_eq hdlen), List.nil_append] at h2
        exact ⟨t, h2⟩
      by_cases hend : q.length - (b.length - i) = r.length
      · rw [List.length_append]
        omega
      · exfalso
        have hall := List.all_eq_true.mp hspan (b.length - i)
          (List.mem_range.mpr hj1)
        rcases Bool.or_eq_true_iff.mp hall with hc | hc
        · rcases Bool.or_eq_true_iff.mp hc with hc2 | hc2
          · simp at hc2
            omega
          · simp at hc2
            exact hend hc2
        · rw [Bool.not_eq_eq_eq_not, Bool.not_true] at hc
          exact absurd (List.isPrefixOf_iff_prefix.mpr hdrop) (by simp [hc])

lemma suffix_append_short {q b r : Path} (h : q <:+ b ++ r)
    (hlen : q.length ≤ r.length) : q <:+ r := by
  obtain ⟨t, ht⟩ := h
  have hl : t.length + q.length = b.length + r.length := by
    have h0 := congrArg List.length ht
    simp only [List.length_append] at h0
    exact h0
  have h2 := congrArg (List.drop b.length) ht
  rw [List.drop_left] at h2
  rw [List.drop_append_eq_append_drop,
    Nat.sub_eq_zero_of_le (by omega : b.length ≤ t.length),
    List.drop_zero] at h2
  exact ⟨t.drop b.length, h2⟩

lemma suffix_append_long {q b r : Path} (h : q <:+ b ++ r)
    (hlen : r.length < q.length) :
    q.drop (q.length - r.length) = r ∧ q.take (q.length - r.length) <:+ b := by
  obtain ⟨t, ht⟩ := h
  have hl : t.length + q.length = b.length + r.length := by
    have h0 := congrArg List.length ht
    simp only [List.length_append] at h0
    exact h0
  constructor
  · have h2 := congrArg (List.drop b.length) ht
    rw [List.drop_left] at h2
    rw [List.drop_append_eq_append_drop,
      List.drop_eq_nil_of_le (by omega : t.length ≤ b.length),
      List.nil_append] at h2
    have hidx : q.length - r.length = b.length - t.length := by omega
    rw [hidx]
    exact h2
  · have h2 := congrArg (List.take b.length) ht
    rw [List.take_left] at h2
    rw [List.take_append_eq_append_take,
      List.take_of_length_le (by omega : t.length ≤ b.length)] at h2
    refine ⟨t, ?_⟩
    rw [← h2]
    congr 2
    omega

lemma suffix_append_of_suffix {q b r : Path} (h : q <:+ r) : q <:+ b ++ r :=
  h.trans (List.suffix_append b r)

/-! Filesystem-operation lemmas. -/

lemma find?_eq_of_mem {l : List (Path × Nat)} (hnd : (l.map (fun e => e.1)).Nodup)
    {p : Path} {n : Nat} (hmem : (p, n) ∈ l) :
    l.find? (fun e => e.1 == p) = some (p, n) := by
  induction l with
  | nil => simp at hmem
  | cons a t ih =>
    simp only [List.map_cons, List.nodup_cons] at hnd
    rcases List.mem_cons.mp hmem with heq | htl
    · subst heq
      simp [List.find?]
    · have hne : a.1 ≠ p := by
        intro hk
        exact hnd.1 (hk ▸ List.mem_map.mpr ⟨(p, n), htl, rfl⟩)
      have hb : (a.1 == p) = false := by simpa using hne
      rw [List.find?, hb]
      exact ih hnd.2 htl

lemma fsExists_iff {st : St} {p : Path} :
    fsExists st p = true ↔ ∃ n, (p, n) ∈ st.files := by
  unfold fsExists
  rw [List.any_eq_true]
  constructor
  · rintro ⟨e, hmem, he⟩
    exact ⟨e.2, by simpa using (beq_iff_eq.mp he) ▸ hmem⟩
  · rintro ⟨n, hmem⟩
    exact ⟨(p, n), hmem, by simp⟩

lemma fsExists_false {st : St} {p : Path}
    (h : ∀ e ∈ st.files, e.1 ≠ p) : fsExists st p = false := by
  unfold fsExists
  rw [List.any_eq_false]
  intro e hmem
  simpa using h e hmem

lemma statSize_eq {st : St} (hnd : keysNodup st) {p : Path} {n : Nat}
    (hmem : (p, n) ∈ st.files) : statSize st p = Except.ok n := by
  unfold statSize
  rw [find?_eq_of_mem hnd hmem]

lemma fsRename_ok {st : St} {src dst : Path} {n : Nat}
    (hnd : keysNodup st) (hmem : (src, n) ∈ st.files)
    (hpar : parentExists st dst = true) :
    fsRename st src dst = Except.ok (afterRename st src dst n) := by
  unfold fsRename afterRename
  rw [find?_eq_of_mem hnd hmem, hpar]
  rfl

lemma mem_renamedFiles_of_ne {l : List (Path × Nat)} {src dst x : Path} {n m : Nat}
    (hmem : (x, m) ∈ l) (hdst : x ≠ dst) (hsrc : x ≠ src) :
    (x, m) ∈ renamedFiles l src dst n := by
  unfold renamedFiles
  refine List.mem_map.mpr ⟨(x, m), List.mem_filter.mpr ⟨hmem, by simpa using hdst⟩, ?_⟩
  rw [if_neg (by simpa using hsrc)]

lemma mem_renamedFiles_dst {l : List (Path × Nat)} {src dst : Path} {n : Nat}
    (hmem : (src, n) ∈ l) (hne : src ≠ dst) :
    (dst, n) ∈ renamedFiles l src dst n := by
  unfold renamedFiles
  refine List.mem_map.mpr ⟨(src, n), List.mem_filter.mpr ⟨hmem, by simpa using hne⟩, ?_⟩
  rw [if_pos (by simp)]

lemma not_mem_renamedFiles_src {l : List (Path × Nat)} {src dst : Path} {n : Nat}
    (hne : src ≠ dst) : ∀ m, (src, m) ∉ renamedFiles l src dst n := by
  intro m hmem
  unfold renamedFiles at hmem
  obtain ⟨e, hf, he⟩ := List.mem_map.mp hmem
  by_cases hk : e.1 = src
  · rw [if_pos (by simpa using hk)] at he
    exact hne (congrArg Prod.fst he).symm
  · rw [if_neg (by simpa using hk)] at he
    exact hk (congrArg Prod.fst he)

lemma not_mem_renamedFiles_other {l : List (Path × Nat)} {src dst x : Path} {n : Nat}
    (hdst : x ≠ dst) (habs : ∀ m, (x, m) ∉ l) : ∀ m, (x, m) ∉ renamedFiles l src dst n := by
  intro m hmem
  unfold renamedFiles at hmem
  obtain ⟨e, hf, he⟩ := List.mem_map.mp hmem
  by_cases hk : e.1 = src
  · rw [if_pos (by simpa using hk)] at he
    exact hdst (congrArg Prod.fst he).symm
  · rw [if_neg (by simpa using hk)] at he
    exact habs m (he ▸ (List.mem_filter.mp hf).1)

lemma mem_renamedFiles_cases {l : List (Path × Nat)} {src dst x : Path} {n m : Nat}
    (hmem : (x, m) ∈ renamedFiles l src dst n) :
    (x = dst ∧ m = n ∧ ∃ e ∈ l, e.1 = src) ∨ ((x, m) ∈ l ∧ x ≠ dst ∧ x ≠ src) := by
  unfold renamedFiles at hmem
  obtain ⟨e, hf, he⟩ := List.mem_map.mp hmem
  obtain ⟨hel, hedst⟩ := List.mem_filter.mp hf
  by_cases hk : e.1 = src
  · rw [if_pos (by simpa using hk)] at he
    exact Or.inl ⟨(congrArg Prod.fst he).symm, (congrArg Prod.snd he).symm,
      e, hel, hk⟩
  · rw [if_neg (by simpa using hk)] at he
    subst he
    exact Or.inr ⟨hel, by simpa using hedst, hk⟩

lemma keys_renamedFiles (l : List (Path × Nat)) (src dst : Path) (n : Nat)
    (hnd : (l.map (fun e => e.1)).Nodup) :
    ((renamedFiles l src dst n).map (fun e => e.1)).Nodup := by
  unfold renamedFiles
  rw [List.map_map]
  have hmapeq : ((fun (e : Path × Nat) => e.1) ∘ fun f => if f.1 == src then (dst, n) else f)
      = (fun k => if k = src then dst else k) ∘ (fun (e : Path × Nat) => e.1) := by
    funext e
    by_cases hk : e.1 = src
    · simp [hk]
    · simp [hk]
  rw [hmapeq, ← List.map_map]
  have hfnd : ((l.filter (fun f => !(f.1 == dst))).map (fun e => e.1)).Nodup := by
    exact List.Nodup.sublist ((List.filter_sublist l).map _) hnd
  refine List.Nodup.map_on ?_ hfnd
  intro a ha c hc hac
  have hadst : a ≠ dst := by
    obtain ⟨e, he, hea⟩ := List.mem_map.mp ha
    have := (List.mem_filter.mp he).2
    simp at this
    rw [← hea]
    exact this
  have hcdst : c ≠ dst := by
    obtain ⟨e, he, hec⟩ := List.mem_map.mp hc
    have := (List.mem_filter.mp he).2
    simp at this
    rw [← hec]
    exact this
  by_cases haa : a = src <;> by_cases hcc : c = src
  · rw [haa, hcc]
  · rw [if_pos haa, if_neg hcc] at hac
    exact absurd hac.symm hcdst
  · rw [if_neg haa, if_pos hcc] at hac
    exact absurd hac hadst
  · rwa [if_neg haa, if_neg hcc] at hac

lemma fsUnlink_ok {st : St} {p : Path} (h : fsExists st p = true) :
    fsUnlink st p = Except.ok (afterUnlink st p) := by
  unfold fsUnlink afterUnlink
  rw [h]
  rfl

lemma parentOf_append_noSlash {x b : Path} (hx : noSlash x = true) :
    parentOf (b ++ x) = parentOf b := by
  have hmem : ∀ c ∈ x, ¬ c = '/' := by
    intro c hc
    have := List.all_eq_true.mp hx c hc
    simpa using this
  have hcont : (b ++ x).contains '/' = b.contains '/' := by
    by_cases hb : '/' ∈ b
    · have h1 : b.contains '/' = true := by
        simpa [List.contains] using List.elem_eq_true_of_mem hb
      have h2 : (b ++ x).contains '/' = true := by
        simpa [List.contains] using
          List.elem_eq_true_of_mem (List.mem_append.mpr (Or.inl hb))
      rw [h1, h2]
    · have h1 : b.contains '/' = false := by
        rw [Bool.eq_false_iff]
        intro hc
        exact hb (by simpa [List.contains] using hc)
      have h2 : (b ++ x).contains '/' = false := by
        rw [Bool.eq_false_iff]
        intro hc
        rcases List.mem_append.mp (by simpa [List.contains] using hc) with h | h
        · exact hb h
        · exact hmem _ h rfl
      rw [h1, h2]
  have hdrop : (b ++ x).reverse.dropWhile (fun c => decide (c ≠ '/'))
      = b.reverse.dropWhile (fun c => decide (c ≠ '/')) := by
    rw [List.reverse_append, List.dropWhile_append]
    rw [if_pos]
    rw [List.isEmpty_iff, List.dropWhile_eq_nil_iff]
    intro c hc
    simp [hmem c (List.mem_reverse.mp hc)]
  unfold parentOf
  rw [hcont, hdrop]

lemma parentExists_congr {st : St} {b x y : Path} (hx : noSlash x = true)
    (hy : noSlash y = true) :
    parentExists st (b ++ x) = parentExists st (b ++ y) := by
  unfold parentExists
  rw [parentOf_append_noSlash hx, parentOf_append_noSlash hy]

lemma parentExists_dirs_eq {st st2 : St} {x : Path} (h : st.dirs = st2.dirs) :
    parentExists st x = parentExists st2 x := by
  unfold parentExists
  rw [h]

lemma filter_eq_single {l : List (Path × Nat)} {pr : Path × Nat → Bool}
    (hnd : (l.map (fun e => e.1)).Nodup) {p : Path} {n : Nat}
    (hmem : (p, n) ∈ l) (hp : pr (p, n) = true)
    (honly : ∀ e ∈ l, pr e = true → e.1 = p) :
    l.filter pr = [(p, n)] := by
  induction l with
  | nil => simp at hmem
  | cons a t ih =>
    simp only [List.map_cons, List.nodup_cons] at hnd
    rcases List.mem_cons.mp hmem with heq | htl
    · subst heq
      rw [List.filter_cons_of_pos hp]
      have ht : t.filter pr = [] := by
        rw [List.filter_eq_nil_iff]
        intro e he hpre
        have := honly e (List.mem_cons_of_mem _ he) hpre
        exact hnd.1 (this ▸ List.mem_map.mpr ⟨e, he, rfl⟩)
      rw [ht]
    · have hna : pr a = false := by
        rcases hb : pr a with _ | _
        · rfl
        · exfalso
          have hk := honly a (List.mem_cons_self a t) hb
          exact hnd.1 (hk ▸ List.mem_map.mpr ⟨(p, n), htl, rfl⟩)
      rw [List.filter_cons_of_neg (by simp [hna])]
      exact ih hnd.2 htl (fun e he hpre => honly e (List.mem_cons_of_mem _ he) hpre)

lemma globSuffix_eq_single {st : St} {p : Path} {n : Nat} {suf : Path}
    (hnd : keysNodup st) (hmem : (p, n) ∈ st.files) (hsuf : suf <:+ p)
    (honly : ∀ e ∈ st.files, suf <:+ e.1 → e.1 = p) :
    globSuffix st suf = [p] := by
  unfold globSuffix
  rw [filter_eq_single hnd hmem (List.isSuffixOf_iff_suffix.mpr hsuf)
    (fun e he hpre => honly e he (List.isSuffixOf_iff_suffix.mp hpre))]
  rfl

lemma globSuffix_eq_nil {st : St} {suf : Path}
    (h : ∀ e ∈ st.files, ¬ suf <:+ e.1) : globSuffix st suf = [] := by
  unfold globSuffix
  rw [List.filter_eq_nil_iff.mpr
    (fun e he => by simpa [List.isSuffixOf_iff_suffix] using h e he)]
  rfl

lemma runList_nil {step : St → Path → Except FsErr St} {st : St} :
    runList step st [] = Except.ok st := rfl

lemma runList_single {step : St → Path → Except FsErr St} {st : St} {p : Path} :
    runList step st [p] = step st p := by
  cases h : step st p <;> simp [runList, h]

lemma not_suffix_of_isSuffixOf_false {q r : Path} (h : q.isSuffixOf r = false) :
    ¬ q <:+ r := by
  intro hc
  rw [List.isSuffixOf_iff_suffix.mpr hc] at h
  exact Bool.noConfusion h

/-! Concrete facts about the pattern literals, lifted over an arbitrary stem. -/

lemma append_ne_append_of_ne {b x y : Path} (h : x ≠ y) : b ++ x ≠ b ++ y :=
  fun hc => h (List.append_cancel_left hc)

lemma m1_ne_nil {lang : Path} : m1 lang ≠ [] := by simp [m1]

lemma m2_ne_nil {lang : Path} : m2 lang ≠ [] := by simp [m2]

lemma not_m1_suffix_append_engForced {lang : Path} (b : Path)
    (hlang : lang = langEn ∨ lang = langEng) : ¬ m1 lang <:+ b ++ engForcedSrt := by
  intro hc
  rcases hlang with h | h <;> subst h
  · exact not_suffix_of_isSuffixOf_false (by decide)
      (suffix_append_short hc (by decide))
  · exact not_suffix_of_isSuffixOf_false (by decide)
      (suffix_append_short hc (by decide))

lemma not_m1en_suffix_append_engSrt (b : Path) : ¬ m1 langEn <:+ b ++ engSrt := by
  intro hc
  have h := suffix_append_long hc (by decide)
  exact absurd h.1 (by decide)

lemma not_m1eng_suffix_append_engSrt {b : Path} (hb1 : ¬ (['.', '1'] <:+ b)) :
    ¬ m1 langEng <:+ b ++ engSrt := by
  intro hc
  have h := suffix_append_long hc (by decide)
  have ht : (m1 langEng).take ((m1 langEng).length - engSrt.length) = ['.', '1'] := by
    decide
  exact hb1 (ht ▸ h.2)

lemma not_m1_suffix_append_m2 {lang lang2 : Path} (b : Path)
    (hlang : lang = langEn ∨ lang = langEng)
    (hlang2 : lang2 = langEn ∨ lang2 = langEng) :
    ¬ m1 lang <:+ b ++ m2 lang2 := by
  intro hc
  rcases hlang with h | h <;> rcases hlang2 with h2 | h2 <;> subst h <;> subst h2
  · exact not_suffix_of_isSuffixOf_false (by decide)
      (suffix_append_short hc (by decide))
  · exact not_suffix_of_isSuffixOf_false (by decide)
      (suffix_append_short hc (by decide))
  · exact absurd (suffix_append_long hc (by decide)).1 (by decide)
  · exact not_suffix_of_isSuffixOf_false (by decide)
      (suffix_append_short hc (by decide))

lemma not_m1en_suffix_append_m1eng (b : Path) : ¬ m1 langEn <:+ b ++ m1 langEng := by
  intro hc
  exact not_suffix_of_isSuffixOf_false (by decide)
    (suffix_append_short hc (by decide))

lemma not_m1eng_suffix_append_m1en (b : Path) : ¬ m1 langEng <:+ b ++ m1 langEn := by
  intro hc
  exact absurd (suffix_append_long hc (by decide)).1 (by decide)

lemma noSlash_m1 {lang : Path} (hlang : lang = langEn ∨ lang = langEng) :
    noSlash (m1 lang) = true := by
  rcases hlang with h | h <;> subst h <;> decide

lemma noSlash_m2 {lang : Path} (hlang : lang = langEn ∨ lang = langEng) :
    noSlash (m2 lang) = true := by
  rcases hlang with h | h <;> subst h <;> decide

lemma m1_ne_engSrt {lang : Path} (hlang : lang = langEn ∨ lang = langEng) :
    m1 lang ≠ engSrt := by
  rcases hlang with h | h <;> subst h <;> decide

lemma m2_ne_engSrt {lang : Path} (hlang : lang = langEn ∨ lang = langEng) :
    m2 lang ≠ engSrt := by
  rcases hlang with h | h <;> subst h <;> decide

lemma m1_ne_m2 {lang lang2 : Path} (hlang : lang = langEn ∨ lang = langEng)
    (hlang2 : lang2 = langEn ∨ lang2 = langEng) : m1 lang ≠ m2 lang2 := by
  rcases hlang with h | h <;> rcases hlang2 with h2 | h2 <;> subst h <;> subst h2 <;> decide

lemma m2_ne_engForcedSrt {lang : Path} (hlang : lang = langEn ∨ lang = langEng) :
    m2 lang ≠ engForcedSrt := by
  rcases hlang with h | h <;> subst h <;> decide

/-! Computation of processOrig on a well-formed variant-1/variant-2 group. -/

lemma processOrig_rename {st : St} {lang b : Path} {o : Nat}
    (hlang : lang = langEn ∨ lang = langEng)
    (hnd : keysNodup st)
    (hmem : (b ++ m1 lang, o) ∈ st.files)
    (hsuf1 : onlySuffix (m1 lang) (b ++ m1 lang))
    (hpar : parentExists st (b ++ m1 lang) = true) :
    processOrig lang st (b ++ m1 lang) =
      (if fsExists (afterRename st (b ++ m1 lang) (b ++ engSrt) o) (b ++ m2 lang) then
        match statSize (afterRename st (b ++ m1 lang) (b ++ engSrt) o) (b ++ m2 lang) with
        | Except.error e => Except.error e
        | Except.ok forcedSize =>
          match statSize (afterRename st (b ++ m1 lang) (b ++ engSrt) o) (b ++ engSrt) with
          | Except.error e => Except.error e
          | Except.ok origSize =>
            if origSize ≤ forcedSize then
              fsUnlink (afterRename st (b ++ m1 lang) (b ++ engSrt) o) (b ++ m2 lang)
            else if 2 * origSize < 5 * forcedSize then
              Except.ok (afterRename st (b ++ m1 lang) (b ++ engSrt) o)
            else
              fsRename (afterRename st (b ++ m1 lang) (b ++ engSrt) o) (b ++ m2 lang)
                (replaceAll (b ++ m2 lang) (m2 lang) engForcedSrt)
      else Except.ok (afterRename st (b ++ m1 lang) (b ++ engSrt) o)) := by
  have hr1 : replaceAll (b ++ m1 lang) (m1 lang) engSrt = b ++ engSrt :=
    replaceAll_of_onlySuffix m1_ne_nil b hsuf1 engSrt
  have hr2 : replaceAll (b ++ m1 lang) (m1 lang) (m2 lang) = b ++ m2 lang :=
    replaceAll_of_onlySuffix m1_ne_nil b hsuf1 (m2 lang)
  have hpar2 : parentExists st (b ++ engSrt) = true :=
    (parentExists_congr (by decide) (noSlash_m1 hlang)).trans hpar
  unfold processOrig
  rw [hr1, hr2, fsRename_ok hnd hmem hpar2]

lemma keysNodup_afterRename {st : St} {src dst : Path} {n : Nat}
    (hnd : keysNodup st) : keysNodup (afterRename st src dst n) :=
  keys_renamedFiles st.files src dst n hnd

lemma processOrig_group_nosib {st : St} {lang b : Path} {o : Nat}
    (hlang : lang = langEn ∨ lang = langEng)
    (hnd : keysNodup st)
    (hmem : (b ++ m1 lang, o) ∈ st.files)
    (hsuf1 : onlySuffix (m1 lang) (b ++ m1 lang))
    (hpar : parentExists st (b ++ m1 lang) = true)
    (hnosib : ∀ e ∈ st.files, e.1 ≠ b ++ m2 lang) :
    processOrig lang st (b ++ m1 lang) =
      Except.ok (afterRename st (b ++ m1 lang) (b ++ engSrt) o) := by
  rw [processOrig_rename hlang hnd hmem hsuf1 hpar]
  have hex : fsExists (afterRename st (b ++ m1 lang) (b ++ engSrt) o) (b ++ m2 lang)
      = false := by
    apply fsExists_false
    intro e he hc
    rcases mem_renamedFiles_cases (by simpa using he) with hcase | hcase
    · exact append_ne_append_of_ne (Ne.symm (m2_ne_engSrt hlang)) (hcase.1 ▸ hc)
    · exact hnosib (e.1, e.2) (by simpa using hcase.1) hc
  rw [hex]
  rfl

lemma processOrig_group_delete {st : St} {lang b : Path} {o f : Nat}
    (hlang : lang = langEn ∨ lang = langEng)
    (hnd : keysNodup st)
    (hmem : (b ++ m1 lang, o) ∈ st.files)
    (hsuf1 : onlySuffix (m1 lang) (b ++ m1 lang))
    (hpar : parentExists st (b ++ m1 lang) = true)
    (hsib : (b ++ m2 lang, f) ∈ st.files)
    (hof : o ≤ f) :
    processOrig lang st (b ++ m1 lang) =
      Except.ok (afterUnlink (afterRename st (b ++ m1 lang) (b ++ engSrt) o)
        (b ++ m2 lang)) := by
  rw [processOrig_rename hlang hnd hmem hsuf1 hpar]
  have hnd1 : keysNodup (afterRename st (b ++ m1 lang) (b ++ engSrt) o) :=
    keysNodup_afterRename hnd
  have hmem1 : (b ++ m2 lang, f) ∈ (afterRename st (b ++ m1 lang) (b ++ engSrt) o).files :=
    mem_renamedFiles_of_ne hsib (append_ne_append_of_ne (m2_ne_engSrt hlang))
      (append_ne_append_of_ne (fun hc => m1_ne_m2 hlang hlang hc.symm))
  have hmemd : (b ++ engSrt, o) ∈ (afterRename st (b ++ m1 lang) (b ++ engSrt) o).files :=
    mem_renamedFiles_dst hmem (append_ne_append_of_ne (m1_ne_engSrt hlang))
  rw [fsExists_iff.mpr ⟨f, hmem1⟩, if_pos rfl,
    statSize_eq hnd1 hmem1, statSize_eq hnd1 hmemd]
  have hred : (if o ≤ f then
        fsUnlink (afterRename st (b ++ m1 lang) (b ++ engSrt) o) (b ++ m2 lang)
      else if 2 * o < 5 * f then
        Except.ok (afterRename st (b ++ m1 lang) (b ++ engSrt) o)
      else
        fsRename (afterRename st (b ++ m1 lang) (b ++ engSrt) o) (b ++ m2 lang)
          (replaceAll (b ++ m2 lang) (m2 lang) engForcedSrt))
      = Except.ok (afterUnlink (afterRename st (b ++ m1 lang) (b ++ engSrt) o)
          (b ++ m2 lang)) := by
    rw [if_pos hof]
    exact fsUnlink_ok (fsExists_iff.mpr ⟨f, hmem1⟩)
  exact hred

lemma processOrig_group_warn {st : St} {lang b : Path} {o f : Nat}
    (hlang : lang = langEn ∨ lang = langEng)
    (hnd : keysNodup st)
    (hmem : (b ++ m1 lang, o) ∈ st.files)
    (hsuf1 : onlySuffix (m1 lang) (b ++ m1 lang))
    (hpar : parentExists st (b ++ m1 lang) = true)
    (hsib : (b ++ m2 lang, f) ∈ st.files)
    (hfo : f < o) (hband : 2 * o < 5 * f) :
    processOrig lang st (b ++ m1 lang) =
      Except.ok (afterRename st (b ++ m1 lang) (b ++ engSrt) o) := by
  rw [processOrig_rename hlang hnd hmem hsuf1 hpar]
  have hnd1 : keysNodup (afterRename st (b ++ m1 lang) (b ++ engSrt) o) :=
    keysNodup_afterRename hnd
  have hmem1 : (b ++ m2 lang, f) ∈ (afterRename st (b ++ m1 lang) (b ++ engSrt) o).files :=
    mem_renamedFiles_of_ne hsib (append_ne_append_of_ne (m2_ne_engSrt hlang))
      (append_ne_append_of_ne (fun hc => m1_ne_m2 hlang hlang hc.symm))
  have hmemd : (b ++ engSrt, o) ∈ (afterRename st (b ++ m1 lang) (b ++ engSrt) o).files :=
    mem_renamedFiles_dst hmem (append_ne_append_of_ne (m1_ne_engSrt hlang))
  rw [fsExists_iff.mpr ⟨f, hmem1⟩, if_pos rfl,
    statSize_eq hnd1 hmem1, statSize_eq hnd1 hmemd]
  have hred : (if o ≤ f then
        fsUnlink (afterRename st (b ++ m1 lang) (b ++ engSrt) o) (b ++ m2 lang)
      else if 2 * o < 5 * f then
        Except.ok (afterRename st (b ++ m1 lang) (b ++ engSrt) o)
      else
        fsRename (afterRename st (b ++ m1 lang) (b ++ engSrt) o) (b ++ m2 lang)
          (replaceAll (b ++ m2 lang) (m2 lang) engForcedSrt))
      = Except.ok (afterRename st (b ++ m1 lang) (b ++ engSrt) o) := by
    rw [if_neg (by omega), if_pos hband]
  exact hred

lemma processOrig_group_forced {st : St} {lang b : Path} {o f : Nat}
    (hlang : lang = langEn ∨ lang = langEng)
    (hnd : keysNodup st)
    (hmem : (b ++ m1 lang, o) ∈ st.files)
    (hsuf1 : onlySuffix (m1 lang) (b ++ m1 lang))
    (hsuf2 : onlySuffix (m2 lang) (b ++ m2 lang))
    (hpar : parentExists st (b ++ m1 lang) = true)
    (hsib : (b ++ m2 lang, f) ∈ st.files)
    (hfo : f < o) (hband : 5 * f ≤ 2 * o) :
    processOrig lang st (b ++ m1 lang) =
      Except.ok (afterRename (afterRename st (b ++ m1 lang) (b ++ engSrt) o)
        (b ++ m2 lang) (b ++ engForcedSrt) f) := by
  rw [processOrig_rename hlang hnd hmem hsuf1 hpar]
  have hnd1 : keysNodup (afterRename st (b ++ m1 lang) (b ++ engSrt) o) :=
    keysNodup_afterRename hnd
  have hmem1 : (b ++ m2 lang, f) ∈ (afterRename st (b ++ m1 lang) (b ++ engSrt) o).files :=
    mem_renamedFiles_of_ne hsib (append_ne_append_of_ne (m2_ne_engSrt hlang))
      (append_ne_append_of_ne (fun hc => m1_ne_m2 hlang hlang hc.symm))
  have hmemd : (b ++ engSrt, o) ∈ (afterRename st (b ++ m1 lang) (b ++ engSrt) o).files :=
    mem_renamedFiles_dst hmem (append_ne_append_of_ne (m1_ne_engSrt hlang))
  have hr3 : replaceAll (b ++ m2 lang) (m2 lang) engForcedSrt = b ++ engForcedSrt :=
    replaceAll_of_onlySuffix m2_ne_nil b hsuf2 engForcedSrt
  have hpar3 : parentExists (afterRename st (b ++ m1 lang) (b ++ engSrt) o)
      (b ++ engForcedSrt) = true := by
    have h0 : parentExists st (b ++ engForcedSrt) = true :=
      (parentExists_congr (by decide) (noSlash_m1 hlang)).trans hpar
    exact h0
  rw [fsExists_iff.mpr ⟨f, hmem1⟩, if_pos rfl,
    statSize_eq hnd1 hmem1, statSize_eq hnd1 hmemd]
  have hred : (if o ≤ f then
        fsUnlink (afterRename st (b ++ m1 lang) (b ++ engSrt) o) (b ++ m2 lang)
      else if 2 * o < 5 * f then
        Except.ok (afterRename st (b ++ m1 lang) (b ++ engSrt) o)
      else
        fsRename (afterRename st (b ++ m1 lang) (b ++ engSrt) o) (b ++ m2 lang)
          (replaceAll (b ++ m2 lang) (m2 lang) engForcedSrt))
      = Except.ok (afterRename (afterRename st (b ++ m1 lang) (b ++ engSrt) o)
          (b ++ m2 lang) (b ++ engForcedSrt) f) := by
    rw [if_neg (by omega), if_neg (by omega), hr3,
      fsRename_ok hnd1 hmem1 hpar3]
  exact hred

lemma sizeAt_eq {st : St} (hnd : keysNodup st) {p : Path} {n : Nat}
    (hmem : (p, n) ∈ st.files) : sizeAt st p = some n := by
  unfold sizeAt
  rw [find?_eq_of_mem hnd hmem]
  rfl

lemma renameForcedLang_single {st st2 : St} {lang b : Path}
    (hglob : globSuffix st (m1 lang) = [b ++ m1 lang])
    (hp : processOrig lang st (b ++ m1 lang) = Except.ok st2) :
    renameForcedLang lang st = Except.ok st2 := by
  unfold renameForcedLang
  rw [hglob, runList_single, hp]

lemma renameForcedLang_empty {st : St} {lang : Path}
    (hglob : globSuffix st (m1 lang) = []) :
    renameForcedLang lang st = Except.ok st := by
  unfold renameForcedLang
  rw [hglob]
  rfl

lemma rename_forced_subs_en_eng {st st1 st2 : St}
    (h1 : renameForcedLang langEn st = Except.ok st1)
    (h2 : renameForcedLang langEng st1 = Except.ok st2) :
    rename_forced_subs st = Except.ok st2 := by
  unfold rename_forced_subs
  rw [h1]
  exact h2

/-- C5: for a discovered variant-1 file whose variant-2 sibling does not
exist on disk, the engine renames the variant-1 file to the canonical
".eng.srt" name (unconditionally, before examining the sibling, whose path
is computed from the pre-rename path string), and processing of the group
stops: the resulting state is exactly the input state with that one rename
applied, and no error is raised. -/
theorem C5_no_sibling_rename_only {st : St} {lang b : Path} {o : Nat}
    (hlang : lang = langEn ∨ lang = langEng)
    (hnd : keysNodup st)
    (hmem : (b ++ m1 lang, o) ∈ st.files)
    (hsuf1 : onlySuffix (m1 lang) (b ++ m1 lang))
    (hpar : parentExists st (b ++ m1 lang) = true)
    (hb1 : ¬ (['.', '1'] <:+ b))
    (honly : ∀ e ∈ st.files, (m1 langEn <:+ e.1 ∨ m1 langEng <:+ e.1) →
      e.1 = b ++ m1 lang)
    (hnosib : ∀ e ∈ st.files, e.1 ≠ b ++ m2 lang) :
    rename_forced_subs st =
      Except.ok (afterRename st (b ++ m1 lang) (b ++ engSrt) o) ∧
    (b ++ engSrt, o) ∈ (afterRename st (b ++ m1 lang) (b ++ engSrt) o).files ∧
    (∀ m, (b ++ m1 lang, m) ∉ (afterRename st (b ++ m1 lang) (b ++ engSrt) o).files) := by
  have hp : processOrig lang st (b ++ m1 lang) =
      Except.ok (afterRename st (b ++ m1 lang) (b ++ engSrt) o) :=
    processOrig_group_nosib hlang hnd hmem hsuf1 hpar hnosib
  have hne_sd : b ++ m1 lang ≠ b ++ engSrt :=
    append_ne_append_of_ne (m1_ne_engSrt hlang)
  refine ⟨?_, mem_renamedFiles_dst hmem hne_sd,
    fun m => not_mem_renamedFiles_src hne_sd m⟩
  rcases hlang with h | h <;> subst h
  · have hg1 : globSuffix st (m1 langEn) = [b ++ m1 langEn] :=
      globSuffix_eq_single hnd hmem (List.suffix_append _ _)
        (fun e he hsuf => honly e he (Or.inl hsuf))
    have hg2 : globSuffix (afterRename st (b ++ m1 langEn) (b ++ engSrt) o)
        (m1 langEng) = [] := by
      apply globSuffix_eq_nil
      intro e he hc
      rcases mem_renamedFiles_cases (by simpa using he) with hcase | hcase
      · rw [hcase.1] at hc
        exact not_m1eng_suffix_append_engSrt hb1 hc
      · have he1 := honly (e.1, e.2) (by simpa using hcase.1) (Or.inr hc)
        rw [he1] at hc
        exact not_m1eng_suffix_append_m1en b hc
    exact rename_forced_subs_en_eng (renameForcedLang_single hg1 hp)
      (renameForcedLang_empty hg2)
  · have hg1 : globSuffix st (m1 langEn) = [] := by
      apply globSuffix_eq_nil
      intro e he hc
      have he1 := honly e he (Or.inl hc)
      rw [he1] at hc
      exact not_m1en_suffix_append_m1eng b hc
    have hg2 : globSuffix st (m1 langEng) = [b ++ m1 langEng] :=
      globSuffix_eq_single hnd hmem (List.suffix_append _ _)
        (fun e he hsuf => honly e he (Or.inr hsuf))
    exact rename_forced_subs_en_eng (renameForcedLang_empty hg1)
      (renameForcedLang_single hg2 hp)

lemma no_engMatch_afterRename {st : St} {lang b : Path} {o : Nat}
    (hlang : lang = langEn ∨ lang = langEng)
    (hb1 : ¬ (['.', '1'] <:+ b))
    (honly : ∀ e ∈ st.files, (m1 langEn <:+ e.1 ∨ m1 langEng <:+ e.1) →
      e.1 = b ++ m1 lang) :
    ∀ e ∈ (afterRename st (b ++ m1 lang) (b ++ engSrt) o).files,
      ¬ m1 langEng <:+ e.1 := by
  intro e he hc
  rcases mem_renamedFiles_cases (by simpa using he) with hcase | hcase
  · rw [hcase.1] at hc
    exact not_m1eng_suffix_append_engSrt hb1 hc
  · have he1 := honly (e.1, e.2) (by simpa using hcase.1) (Or.inr hc)
    rcases hlang with h | h <;> subst h
    · rw [he1] at hc
      exact not_m1eng_suffix_append_m1en b hc
    · exact hcase.2.2 he1

lemma glob_en_nil_of_group_eng {st : St} {b : Path}
    (honly : ∀ e ∈ st.files, (m1 langEn <:+ e.1 ∨ m1 langEng <:+ e.1) →
      e.1 = b ++ m1 langEng) :
    globSuffix st (m1 langEn) = [] := by
  apply globSuffix_eq_nil
  intro e he hc
  have he1 := honly e he (Or.inl hc)
  rw [he1] at hc
  exact not_m1en_suffix_append_m1eng b hc

lemma rename_forced_subs_single_group {st st2 : St} {lang b : Path} {o : Nat}
    (hlang : lang = langEn ∨ lang = langEng)
    (hnd : keysNodup st)
    (hmem : (b ++ m1 lang, o) ∈ st.files)
    (honly : ∀ e ∈ st.files, (m1 langEn <:+ e.1 ∨ m1 langEng <:+ e.1) →
      e.1 = b ++ m1 lang)
    (hp : processOrig lang st (b ++ m1 lang) = Except.ok st2)
    (hg2 : globSuffix st2 (m1 langEng) = []) :
    rename_forced_subs st = Except.ok st2 := by
  rcases hlang with h | h <;> subst h
  · exact rename_forced_subs_en_eng
      (renameForcedLang_single (globSuffix_eq_single hnd hmem (List.suffix_append _ _)
        (fun e he hsuf => honly e he (Or.inl hsuf))) hp)
      (renameForcedLang_empty hg2)
  · exact rename_forced_subs_en_eng
      (renameForcedLang_empty (glob_en_nil_of_group_eng honly))
      (renameForcedLang_single (globSuffix_eq_single hnd hmem (List.suffix_append _ _)
        (fun e he hsuf => honly e he (Or.inr hsuf))) hp)

/-- C1 counterexample: for a variant-1 file of size 1000 whose variant-2
sibling has size 999, the engine does NOT delete the variant-2 file: since
999 >= 1000 fails and 999 > 0.4 * 1000 holds, the warning branch is taken
and the variant-2 file is still present afterwards. -/
theorem C1_counterexample :
    rename_forced_subs
        ⟨[(exStem ++ m1 langEn, 1000), (exStem ++ m2 langEn, 999)], [exRoot]⟩ =
      Except.ok
        ⟨[(exStem ++ engSrt, 1000), (exStem ++ m2 langEn, 999)], [exRoot]⟩ ∧
    fsExists ⟨[(exStem ++ engSrt, 1000), (exStem ++ m2 langEn, 999)], [exRoot]⟩
      (exStem ++ m2 langEn) = true := by decide

/-- C1 amended: for a variant-1 file of size 1000 with a variant-2 sibling of
size 999 the engine takes the warning branch and leaves the variant-2 file in
place (999 >= 1000 is false); the deletion outcome occurs in the opposite
orientation, variant-1 size 999 with variant-2 size 1000 (1000 >= 999). -/
theorem C1_amended_boundary :
    (rename_forced_subs
        ⟨[(exStem ++ m1 langEn, 1000), (exStem ++ m2 langEn, 999)], [exRoot]⟩ =
      Except.ok
        ⟨[(exStem ++ engSrt, 1000), (exStem ++ m2 langEn, 999)], [exRoot]⟩) ∧
    (rename_forced_subs
        ⟨[(exStem ++ m1 langEn, 999), (exStem ++ m2 langEn, 1000)], [exRoot]⟩ =
      Except.ok ⟨[(exStem ++ engSrt, 999)], [exRoot]⟩) := by decide

/-- C2 counterexample: with variant-1 size 0 and variant-2 size 0 the
variant-2 size equals exactly 0.4 times the variant-1 size, yet the engine
takes the deletion branch (0 >= 0), deleting variant-2 instead of renaming
it to the canonical forced name. -/
theorem C2_counterexample :
    rename_forced_subs
        ⟨[(exStem ++ m1 langEn, 0), (exStem ++ m2 langEn, 0)], [exRoot]⟩ =
      Except.ok ⟨[(exStem ++ engSrt, 0)], [exRoot]⟩ ∧
    5 * 0 = 2 * 0 ∧
    fsExists ⟨[(exStem ++ engSrt, 0)], [exRoot]⟩ (exStem ++ engForcedSrt) = false ∧
    fsExists ⟨[(exStem ++ engSrt, 0)], [exRoot]⟩ (exStem ++ m2 langEn) = false := by
  decide

/-- C2 amended: for a discovered group in which the variant-2 size equals
exactly 0.4 times the (positive) variant-1 size, the branch order (>= first,
then strictly > 0.4 * orig) sends the group to the confident-forced branch:
the variant-2 file is renamed to the canonical ".eng.forced.srt" name and is
not left in place, deleted, or warned about. -/
theorem C2_amended_ratio_exact_forced {st : St} {lang b : Path} {o f : Nat}
    (hlang : lang = langEn ∨ lang = langEng)
    (hnd : keysNodup st)
    (hmem : (b ++ m1 lang, o) ∈ st.files)
    (hsuf1 : onlySuffix (m1 lang) (b ++ m1 lang))
    (hsuf2 : onlySuffix (m2 lang) (b ++ m2 lang))
    (hpar : parentExists st (b ++ m1 lang) = true)
    (hb1 : ¬ (['.', '1'] <:+ b))
    (honly : ∀ e ∈ st.files, (m1 langEn <:+ e.1 ∨ m1 langEng <:+ e.1) →
      e.1 = b ++ m1 lang)
    (hsib : (b ++ m2 lang, f) ∈ st.files)
    (hratio : 5 * f = 2 * o) (hopos : 0 < o) :
    rename_forced_subs st =
      Except.ok (afterRename (afterRename st (b ++ m1 lang) (b ++ engSrt) o)
        (b ++ m2 lang) (b ++ engForcedSrt) f) ∧
    (b ++ engForcedSrt, f) ∈ (afterRename (afterRename st (b ++ m1 lang) (b ++ engSrt) o)
        (b ++ m2 lang) (b ++ engForcedSrt) f).files ∧
    (∀ m, (b ++ m2 lang, m) ∉ (afterRename (afterRename st (b ++ m1 lang) (b ++ engSrt) o)
        (b ++ m2 lang) (b ++ engForcedSrt) f).files) ∧
    (b ++ engSrt, o) ∈ (afterRename (afterRename st (b ++ m1 lang) (b ++ engSrt) o)
        (b ++ m2 lang) (b ++ engForcedSrt) f).files := by
  have hfo : f < o := by omega
  have hband : 5 * f ≤ 2 * o := le_of_eq hratio
  have hp := processOrig_group_forced hlang hnd hmem hsuf1 hsuf2 hpar hsib hfo hband
  have hmem1 : (b ++ m2 lang, f) ∈ (afterRename st (b ++ m1 lang) (b ++ engSrt) o).files :=
    mem_renamedFiles_of_ne hsib (append_ne_append_of_ne (m2_ne_engSrt hlang))
      (append_ne_append_of_ne (fun hc => m1_ne_m2 hlang hlang hc.symm))
  have hmemd : (b ++ engSrt, o) ∈ (afterRename st (b ++ m1 lang) (b ++ engSrt) o).files :=
    mem_renamedFiles_dst hmem (append_ne_append_of_ne (m1_ne_engSrt hlang))
  refine ⟨?_, mem_renamedFiles_dst hmem1
      (append_ne_append_of_ne (m2_ne_engForcedSrt hlang)),
    fun m => not_mem_renamedFiles_src
      (append_ne_append_of_ne (m2_ne_engForcedSrt hlang)) m,
    mem_renamedFiles_of_ne hmemd (append_ne_append_of_ne (by decide))
      (append_ne_append_of_ne (fun hc => m2_ne_engSrt hlang hc.symm))⟩
  apply rename_forced_subs_single_group hlang hnd hmem honly hp
  apply globSuffix_eq_nil
  intro e he hc
  rcases mem_renamedFiles_cases (by simpa using he) with hcase | hcase
  · rw [hcase.1] at hc
    exact not_m1_suffix_append_engForced b (Or.inr rfl) hc
  · exact no_engMatch_afterRename hlang hb1 honly (e.1, e.2)
      (by simpa using hcase.1) hc

/-- C3: when the variant-2 sibling exists and its size is at least the size
of the (already renamed) variant-1 file, the engine deletes the variant-2
file; afterwards only the canonical original remains for the group, and the
variant-2 file is never renamed to the canonical forced name. -/
theorem C3_not_smaller_deleted {st : St} {lang b : Path} {o f : Nat}
    (hlang : lang = langEn ∨ lang = langEng)
    (hnd : keysNodup st)
    (hmem : (b ++ m1 lang, o) ∈ st.files)
    (hsuf1 : onlySuffix (m1 lang) (b ++ m1 lang))
    (hpar : parentExists st (b ++ m1 lang) = true)
    (hb1 : ¬ (['.', '1'] <:+ b))
    (honly : ∀ e ∈ st.files, (m1 langEn <:+ e.1 ∨ m1 langEng <:+ e.1) →
      e.1 = b ++ m1 lang)
    (hsib : (b ++ m2 lang, f) ∈ st.files)
    (hforcedabs : ∀ e ∈ st.files, e.1 ≠ b ++ engForcedSrt)
    (hof : o ≤ f) :
    rename_forced_subs st =
      Except.ok (afterUnlink (afterRename st (b ++ m1 lang) (b ++ engSrt) o)
        (b ++ m2 lang)) ∧
    (b ++ engSrt, o) ∈ (afterUnlink (afterRename st (b ++ m1 lang) (b ++ engSrt) o)
        (b ++ m2 lang)).files ∧
    (∀ m, (b ++ m2 lang, m) ∉ (afterUnlink (afterRename st (b ++ m1 lang) (b ++ engSrt) o)
        (b ++ m2 lang)).files) ∧
    (∀ m, (b ++ m1 lang, m) ∉ (afterUnlink (afterRename st (b ++ m1 lang) (b ++ engSrt) o)
        (b ++ m2 lang)).files) ∧
    (∀ m, (b ++ engForcedSrt, m) ∉ (afterUnlink (afterRename st (b ++ m1 lang) (b ++ engSrt) o)
        (b ++ m2 lang)).files) := by
  have hp := processOrig_group_delete hlang hnd hmem hsuf1 hpar hsib hof
  have hne_sd : b ++ m1 lang ≠ b ++ engSrt :=
    append_ne_append_of_ne (m1_ne_engSrt hlang)
  have hdsib : b ++ engSrt ≠ b ++ m2 lang :=
    append_ne_append_of_ne (fun hc => m2_ne_engSrt hlang hc.symm)
  refine ⟨?_, ?_, ?_, ?_, ?_⟩
  · apply rename_forced_subs_single_group hlang hnd hmem honly hp
    apply globSuffix_eq_nil
    intro e he hc
    exact no_engMatch_afterRename hlang hb1 honly e (List.mem_filter.mp he).1 hc
  · exact List.mem_filter.mpr ⟨mem_renamedFiles_dst hmem hne_sd, by simpa using hdsib⟩
  · intro m hm
    have := (List.mem_filter.mp hm).2
    simp at this
  · intro m hm
    exact not_mem_renamedFiles_src hne_sd m (List.mem_filter.mp hm).1
  · intro m hm
    refine not_mem_renamedFiles_other (append_ne_append_of_ne (by decide))
      (fun k hk => hforcedabs (b ++ engForcedSrt, k) hk rfl) m
      (List.mem_filter.mp hm).1

/-- C4: when the variant-2 sibling exists with size strictly between 0.4
times the variant-1 size and the variant-1 size, the engine takes the
warning branch: the variant-2 file is neither renamed nor deleted and stays
at its original path with its original size, and no canonical forced file is
created. -/
theorem C4_ambiguous_band_untouched {st : St} {lang b : Path} {o f : Nat}
    (hlang : lang = langEn ∨ lang = langEng)
    (hnd : keysNodup st)
    (hmem : (b ++ m1 lang, o) ∈ st.files)
    (hsuf1 : onlySuffix (m1 lang) (b ++ m1 lang))
    (hpar : parentExists st (b ++ m1 lang) = true)
    (hb1 : ¬ (['.', '1'] <:+ b))
    (honly : ∀ e ∈ st.files, (m1 langEn <:+ e.1 ∨ m1 langEng <:+ e.1) →
      e.1 = b ++ m1 lang)
    (hsib : (b ++ m2 lang, f) ∈ st.files)
    (hforcedabs : ∀ e ∈ st.files, e.1 ≠ b ++ engForcedSrt)
    (hlow : 2 * o < 5 * f) (hhigh : f < o) :
    rename_forced_subs st =
      Except.ok (afterRename st (b ++ m1 lang) (b ++ engSrt) o) ∧
    (b ++ m2 lang, f) ∈ (afterRename st (b ++ m1 lang) (b ++ engSrt) o).files ∧
    (b ++ engSrt, o) ∈ (afterRename st (b ++ m1 lang) (b ++ engSrt) o).files ∧
    (∀ m, (b ++ engForcedSrt, m) ∉
      (afterRename st (b ++ m1 lang) (b ++ engSrt) o).files) := by
  have hp := processOrig_group_warn hlang hnd hmem hsuf1 hpar hsib hhigh hlow
  have hne_sd : b ++ m1 lang ≠ b ++ engSrt :=
    append_ne_append_of_ne (m1_ne_engSrt hlang)
  refine ⟨?_,
    mem_renamedFiles_of_ne hsib (append_ne_append_of_ne (m2_ne_engSrt hlang))
      (append_ne_append_of_ne (fun hc => m1_ne_m2 hlang hlang hc.symm)),
    mem_renamedFiles_dst hmem hne_sd,
    fun m => not_mem_renamedFiles_other (append_ne_append_of_ne (by decide))
      (fun k hk => hforcedabs (b ++ engForcedSrt, k) hk rfl) m⟩
  apply rename_forced_subs_single_group hlang hnd hmem honly hp
  exact globSuffix_eq_nil (no_engMatch_afterRename hlang hb1 honly)

/-- C10: both rename sites of the classification engine silently replace an
existing file at the computed destination.  First conjunct: when the engine
canonicalizes a variant-1 file and a file already exists at the ".eng.srt"
destination, no error is raised, the destination afterwards holds the
renamed file's size, and the pre-existing destination entry is gone.
Second conjunct: when the engine renames a confidently-forced variant-2
file and a file already exists at the ".eng.forced.srt" destination, the
rename likewise silently replaces it. -/
theorem C10_rename_overwrites_existing {st : St} {lang b : Path} {o : Nat}
    (hlang : lang = langEn ∨ lang = langEng)
    (hnd : keysNodup st)
    (hmem : (b ++ m1 lang, o) ∈ st.files)
    (hsuf1 : onlySuffix (m1 lang) (b ++ m1 lang))
    (hpar : parentExists st (b ++ m1 lang) = true)
    (hb1 : ¬ (['.', '1'] <:+ b))
    (honly : ∀ e ∈ st.files, (m1 langEn <:+ e.1 ∨ m1 langEng <:+ e.1) →
      e.1 = b ++ m1 lang) :
    (∀ s0, (b ++ engSrt, s0) ∈ st.files →
      (∀ e ∈ st.files, e.1 ≠ b ++ m2 lang) →
      rename_forced_subs st =
        Except.ok (afterRename st (b ++ m1 lang) (b ++ engSrt) o) ∧
      sizeAt (afterRename st (b ++ m1 lang) (b ++ engSrt) o) (b ++ engSrt) = some o ∧
      (∀ m, (b ++ engSrt, m) ∈ (afterRename st (b ++ m1 lang) (b ++ engSrt) o).files →
        m = o)) ∧
    (∀ f s1, (b ++ m2 lang, f) ∈ st.files →
      (b ++ engForcedSrt, s1) ∈ st.files →
      onlySuffix (m2 lang) (b ++ m2 lang) →
      f < o → 5 * f ≤ 2 * o →
      rename_forced_subs st =
        Except.ok (afterRename (afterRename st (b ++ m1 lang) (b ++ engSrt) o)
          (b ++ m2 lang) (b ++ engForcedSrt) f) ∧
      sizeAt (afterRename (afterRename st (b ++ m1 lang) (b ++ engSrt) o)
        (b ++ m2 lang) (b ++ engForcedSrt) f) (b ++ engForcedSrt) = some f ∧
      (∀ m, (b ++ engForcedSrt, m) ∈
          (afterRename (afterRename st (b ++ m1 lang) (b ++ engSrt) o)
            (b ++ m2 lang) (b ++ engForcedSrt) f).files →
        m = f)) := by
  constructor
  · intro s0 hpre hnosib
    have hp : processOrig lang st (b ++ m1 lang) =
        Except.ok (afterRename st (b ++ m1 lang) (b ++ engSrt) o) :=
      processOrig_group_nosib hlang hnd hmem hsuf1 hpar hnosib
    have hr : rename_forced_subs st =
        Except.ok (afterRename st (b ++ m1 lang) (b ++ engSrt) o) := by
      apply rename_forced_subs_single_group hlang hnd hmem honly hp
      exact globSuffix_eq_nil (no_engMatch_afterRename hlang hb1 honly)
    have hne_sd : b ++ m1 lang ≠ b ++ engSrt :=
      append_ne_append_of_ne (m1_ne_engSrt hlang)
    refine ⟨hr, sizeAt_eq (keysNodup_afterRename hnd)
      (mem_renamedFiles_dst hmem hne_sd), ?_⟩
    intro m hm
    rcases mem_renamedFiles_cases hm with hcase | hcase
    · exact hcase.2.1
    · exact absurd rfl hcase.2.1
  · intro f s1 hsib hpre2 hsuf2 hfo hband
    have hp := processOrig_group_forced hlang hnd hmem hsuf1 hsuf2 hpar hsib hfo hband
    have hmem1 : (b ++ m2 lang, f) ∈
        (afterRename st (b ++ m1 lang) (b ++ engSrt) o).files :=
      mem_renamedFiles_of_ne hsib (append_ne_append_of_ne (m2_ne_engSrt hlang))
        (append_ne_append_of_ne (fun hc => m1_ne_m2 hlang hlang hc.symm))
    have hr : rename_forced_subs st =
        Except.ok (afterRename (afterRename st (b ++ m1 lang) (b ++ engSrt) o)
          (b ++ m2 lang) (b ++ engForcedSrt) f) := by
      apply rename_forced_subs_single_group hlang hnd hmem honly hp
      apply globSuffix_eq_nil
      intro e he hc
      rcases mem_renamedFiles_cases (by simpa using he) with hcase | hcase
      · rw [hcase.1] at hc
        exact not_m1_suffix_append_engForced b (Or.inr rfl) hc
      · exact no_engMatch_afterRename hlang hb1 honly (e.1, e.2)
          (by simpa using hcase.1) hc
    refine ⟨hr, sizeAt_eq (keysNodup_afterRename (keysNodup_afterRename hnd))
      (mem_renamedFiles_dst hmem1
        (append_ne_append_of_ne (m2_ne_engForcedSrt hlang))), ?_⟩
    intro m hm
    rcases mem_renamedFiles_cases hm with hcase | hcase
    · exact hcase.2.1
    · exact absurd rfl hcase.2.1

/-- C8: in the language-tag normalization pass, a file ending in ".en.srt"
is deleted (with the ".eng.srt" sibling left unchanged, whatever the two
sizes are) when the sibling exists, and is renamed to the ".eng.srt" form
when it does not. -/
theorem C8_en_to_eng_normalization {st : St} {b : Path} {n : Nat}
    (hnd : keysNodup st)
    (hmem : (b ++ enSrt, n) ∈ st.files)
    (hsuf : onlySuffix enSrt (b ++ enSrt))
    (hpar : parentExists st (b ++ enSrt) = true)
    (honly : ∀ e ∈ st.files, enSrt <:+ e.1 → e.1 = b ++ enSrt) :
    (∀ s0, (b ++ engSrt, s0) ∈ st.files →
      rename_en_to_eng_subs st = Except.ok (afterUnlink st (b ++ enSrt)) ∧
      (b ++ engSrt, s0) ∈ (afterUnlink st (b ++ enSrt)).files ∧
      (∀ m, (b ++ enSrt, m) ∉ (afterUnlink st (b ++ enSrt)).files)) ∧
    ((∀ e ∈ st.files, e.1 ≠ b ++ engSrt) →
      rename_en_to_eng_subs st =
        Except.ok (afterRename st (b ++ enSrt) (b ++ engSrt) n) ∧
      (b ++ engSrt, n) ∈ (afterRename st (b ++ enSrt) (b ++ engSrt) n).files ∧
      (∀ m, (b ++ enSrt, m) ∉ (afterRename st (b ++ enSrt) (b ++ engSrt) n).files)) := by
  have hglob : globSuffix st enSrt = [b ++ enSrt] :=
    globSuffix_eq_single hnd hmem (List.suffix_append _ _) honly
  have hr : replaceAll (b ++ enSrt) enSrt engSrt = b ++ engSrt :=
    replaceAll_of_onlySuffix (by decide) b hsuf engSrt
  have hpass : rename_en_to_eng_subs st = processEn st (b ++ enSrt) := by
    unfold rename_en_to_eng_subs
    rw [hglob, runList_single]
  have hne : b ++ enSrt ≠ b ++ engSrt := append_ne_append_of_ne (by decide)
  constructor
  · intro s0 hs0
    have hex : fsExists st (b ++ engSrt) = true := fsExists_iff.mpr ⟨s0, hs0⟩
    have hproc : processEn st (b ++ enSrt) = Except.ok (afterUnlink st (b ++ enSrt)) := by
      unfold processEn
      rw [hr]
      show (if fsExists st (b ++ engSrt) = true then fsUnlink st (b ++ enSrt)
        else fsRename st (b ++ enSrt) (b ++ engSrt)) = _
      rw [hex, if_pos rfl]
      exact fsUnlink_ok (fsExists_iff.mpr ⟨n, hmem⟩)
    refine ⟨hpass.trans hproc, List.mem_filter.mpr ⟨hs0, by simpa using hne.symm⟩, ?_⟩
    intro m hm
    have := (List.mem_filter.mp hm).2
    simp at this
  · intro habs
    have hex : fsExists st (b ++ engSrt) = false :=
      fsExists_false (fun e he => habs e he)
    have hpar2 : parentExists st (b ++ engSrt) = true :=
      (parentExists_congr (by decide) (by decide)).trans hpar
    have hproc : processEn st (b ++ enSrt) =
        Except.ok (afterRename st (b ++ enSrt) (b ++ engSrt) n) := by
      unfold processEn
      rw [hr]
      show (if fsExists st (b ++ engSrt) = true then fsUnlink st (b ++ enSrt)
        else fsRename st (b ++ enSrt) (b ++ engSrt)) = _
      rw [hex, if_neg (by simp)]
      exact fsRename_ok hnd hmem hpar2
    exact ⟨hpass.trans hproc, mem_renamedFiles_dst hmem hne,
      fun m => not_mem_renamedFiles_src hne m⟩

/-- C7: the only filesystem error the system swallows is the rmdir failure
(directory not empty) inside the pruning pass, which leaves the state
unchanged; an error in any of the other three passes is propagated to main
unmodified, and when the first three passes succeed main never fails (the
pruning pass is total). -/
theorem C7_only_rmdir_failure_swallowed :
    (∀ st d e, fsRmdir st d = Except.error e →
      e = FsErr.notEmpty d ∧ tryRmdir st d = st) ∧
    (∀ root st e, rename_forced_subs st = Except.error e →
      mainRun root st = Except.error e) ∧
    (∀ root st st1 e, rename_forced_subs st = Except.ok st1 →
      rename_en_to_eng_subs st1 = Except.error e →
      mainRun root st = Except.error e) ∧
    (∀ root st st1 st2 e, rename_forced_subs st = Except.ok st1 →
      rename_en_to_eng_subs st1 = Except.ok st2 →
      delete_nfo_and_txt_files st2 = Except.error e →
      mainRun root st = Except.error e) ∧
    (∀ root st st1 st2 st3, rename_forced_subs st = Except.ok st1 →
      rename_en_to_eng_subs st1 = Except.ok st2 →
      delete_nfo_and_txt_files st2 = Except.ok st3 →
      mainRun root st = Except.ok (delete_empty_directories root st3)) := by
  refine ⟨?_, ?_, ?_, ?_, ?_⟩
  · intro st d e h
    unfold fsRmdir at h
    by_cases hd : isEmptyDir st d = true
    · rw [if_pos hd] at h
      exact Except.noConfusion h
    · rw [if_neg hd] at h
      have he : e = FsErr.notEmpty d := ((Except.error.injEq _ _).mp h).symm
      refine ⟨he, ?_⟩
      unfold tryRmdir fsRmdir
      rw [if_neg hd]
  · intro root st e h
    unfold mainRun
    rw [h]
  · intro root st st1 e h1 h2
    unfold mainRun
    simp only [h1, h2]
  · intro root st st1 st2 e h1 h2 h3
    unfold mainRun
    simp only [h1, h2, h3]
  · intro root st st1 st2 st3 h1 h2 h3
    unfold mainRun
    simp only [h1, h2, h3]


/-! Path-structure lemmas: parents, descendants, depth. -/

lemma noSlash_iff {x : Path} : noSlash x = true ↔ '/' ∉ x := by
  unfold noSlash
  rw [List.all_eq_true]
  constructor
  · intro h hmem
    have := h '/' hmem
    simp at this
  · intro h c hc
    simp only [Bool.not_eq_eq_eq_not, Bool.not_true, beq_eq_false_iff_ne]
    intro hceq
    exact h (hceq ▸ hc)

lemma exists_last_slash {x : Path} (hs : '/' ∈ x) :
    ∃ a c, x = a ++ '/' :: c ∧ noSlash c = true := by
  induction x with
  | nil => simp at hs
  | cons ch xs ih =>
    by_cases hxs : '/' ∈ xs
    · obtain ⟨a, c, hx, hc⟩ := ih hxs
      exact ⟨ch :: a, c, by rw [List.cons_append, hx], hc⟩
    · have hch : ch = '/' := by
        rcases List.mem_cons.mp hs with h | h
        · exact h.symm
        · exact absurd h hxs
      subst hch
      exact ⟨[], xs, rfl, noSlash_iff.mpr hxs⟩

lemma parentOf_of_decomp {a : Path} {c : List Char} (hc : noSlash c = true) :
    parentOf (a ++ '/' :: c) = some a := by
  have hmem : '/' ∈ a ++ '/' :: c :=
    List.mem_append.mpr (Or.inr (List.mem_cons_self _ _))
  unfold parentOf
  rw [if_pos (by simpa [List.contains] using List.elem_eq_true_of_mem hmem)]
  have hrev : (a ++ '/' :: c).reverse = c.reverse ++ '/' :: a.reverse := by
    simp
  rw [hrev, List.dropWhile_append]
  have hcrev : c.reverse.dropWhile (fun ch => decide (ch ≠ '/')) = [] := by
    rw [List.dropWhile_eq_nil_iff]
    intro ch hch
    have hne := noSlash_iff.mp hc
    simp only [decide_eq_true_eq]
    intro hcon
    exact hne (hcon ▸ List.mem_reverse.mp hch)
  rw [hcrev]
  simp

lemma parentOf_decomp {x : Path} (hs : '/' ∈ x) :
    ∃ a c, x = a ++ '/' :: c ∧ noSlash c = true ∧ parentOf x = some a := by
  obtain ⟨a, c, hx, hc⟩ := exists_last_slash hs
  exact ⟨a, c, hx, hc, by rw [hx]; exact parentOf_of_decomp hc⟩

lemma below_slash {d x : Path} (h : below d x) : '/' ∈ x :=
  h.subset (List.mem_append.mpr (Or.inr (List.mem_singleton.mpr rfl)))

lemma below_parentOf {x q : Path} (h : parentOf x = some q) : below q x := by
  by_cases hs : '/' ∈ x
  · obtain ⟨a, c, hx, hc, hp⟩ := parentOf_decomp hs
    have haq : a = q := by
      rw [h] at hp
      simpa using hp.symm
    subst haq
    rw [hx]
    exact ⟨c, by simp⟩
  · exfalso
    unfold parentOf at h
    rw [if_neg (by
      intro hcon
      exact hs (by simpa [List.contains] using hcon))] at h
    exact Option.noConfusion h

lemma parentOf_length_lt {x q : Path} (h : parentOf x = some q) :
    q.length < x.length := by
  have hb := below_parentOf h
  have hle := hb.length_le
  simp only [List.length_append, List.length_singleton] at hle
  omega

lemma below_trans {a b c : Path} (h1 : below a b) (h2 : below b c) : below a c :=
  List.IsPrefix.trans h1 (List.IsPrefix.trans (List.prefix_append b ['/']) h2)

lemma depth_lt_of_below {d x : Path} (h : below d x) : depth d < depth x := by
  obtain ⟨t, ht⟩ := h
  rw [← ht]
  unfold depth
  rw [List.countP_append, List.countP_append]
  have h1 : List.countP (fun c => c == '/') ['/'] = 1 := by decide
  omega

lemma exists_parentOf_of_below {d x : Path} (h : below d x) :
    ∃ q, parentOf x = some q := by
  obtain ⟨a, c, hx, hc, hp⟩ := parentOf_decomp (below_slash h)
  exact ⟨a, hp⟩

lemma below_of_below_parentOf {d x q : Path} (hb : below d x)
    (hp : parentOf x = some q) : q = d ∨ below d q := by
  obtain ⟨a, c, hx, hc, hpa⟩ := parentOf_decomp (below_slash hb)
  have haq : a = q := by
    rw [hp] at hpa
    simpa using hpa.symm
  subst haq
  subst hx
  have hb2 : d ++ ['/'] <+: a ++ '/' :: c := hb
  rcases le_or_lt (d.length + 1) a.length with hlen | hlen
  · right
    show d ++ ['/'] <+: a
    rw [List.prefix_iff_eq_take] at hb2 ⊢
    rw [List.take_append_of_le_length (by simpa using hlen)] at hb2
    exact hb2
  · rcases eq_or_lt_of_le (Nat.lt_succ_iff.mp hlen) with heq | hlt
    · left
      rw [List.prefix_iff_eq_take] at hb2
      have hq : (a ++ '/' :: c).take (d ++ ['/']).length = a ++ ['/'] := by
        rw [List.take_append_eq_append_take,
          List.take_of_length_le (by simp [← heq])]
        have h1 : (d ++ ['/']).length - a.length = 1 := by simp [← heq]
        rw [h1]
        rfl
      rw [hq] at hb2
      exact (List.append_cancel_right hb2).symm
    · exfalso
      obtain ⟨t, ht⟩ := hb2
      have h2 := congrArg (List.drop (a.length + 1)) ht
      have hlhs : ((d ++ ['/']) ++ t).drop (a.length + 1) =
          (d.drop (a.length + 1) ++ ['/']) ++ t := by
        rw [List.drop_append_eq_append_drop,
          Nat.sub_eq_zero_of_le (by simp; omega), List.drop_zero,
          List.drop_append_eq_append_drop,
          Nat.sub_eq_zero_of_le (by omega), List.drop_zero]
      have hrhs : (a ++ '/' :: c).drop (a.length + 1) = c := by
        rw [List.drop_append_eq_append_drop,
          List.drop_eq_nil_of_le (by omega), List.nil_append]
        have h1 : a.length + 1 - a.length = 1 := by omega
        rw [h1]
        rfl
      rw [hlhs, hrhs] at h2
      have hsub : '/' ∈ c := by
        rw [← h2]
        exact List.mem_append.mpr (Or.inl (List.mem_append.mpr (Or.inr (by simp))))
      exact noSlash_iff.mp hc hsub


/-! Pruning-pass lemmas. -/

lemma dir_chain {dirs₀ : List Path}
    (hclosD : ∀ d2 ∈ dirs₀, ∀ q, parentOf d2 = some q → q ∈ dirs₀) {d : Path} :
    ∀ n c, c.length ≤ n → c ∈ dirs₀ → below d c →
      ∃ c2 ∈ dirs₀, parentOf c2 = some d ∧ below d c2 ∧ (c2 = c ∨ below c2 c) := by
  intro n
  induction n with
  | zero =>
    intro c hc hmem hb
    have hnil : c = [] := List.eq_nil_of_length_eq_zero (Nat.le_zero.mp hc)
    subst hnil
    exact absurd (below_slash hb) (by simp)
  | succ n ih =>
    intro c hc hmem hb
    obtain ⟨q, hq⟩ := exists_parentOf_of_below hb
    rcases below_of_below_parentOf hb hq with heq | hbq
    · exact ⟨c, hmem, heq ▸ hq, hb, Or.inl rfl⟩
    · have hqmem : q ∈ dirs₀ := hclosD c hmem q hq
      have hqlen : q.length < c.length := parentOf_length_lt hq
      obtain ⟨c2, hc2mem, hc2p, hc2b, hc2or⟩ := ih q (by omega) hqmem hbq
      refine ⟨c2, hc2mem, hc2p, hc2b, Or.inr ?_⟩
      rcases hc2or with rfl | h
      · exact below_parentOf hq
      · exact below_trans h (below_parentOf hq)

lemma direct_entry_of_below {files₀ : List (Path × Nat)} {dirs₀ : List Path}
    (hclosD : ∀ d2 ∈ dirs₀, ∀ q, parentOf d2 = some q → q ∈ dirs₀)
    (hclosF : ∀ e ∈ files₀, ∀ q, parentOf e.1 = some q → q ∈ dirs₀)
    {d : Path} {e : Path × Nat} (he : e ∈ files₀) (hb : below d e.1) :
    parentOf e.1 = some d ∨
      ∃ c ∈ dirs₀, parentOf c = some d ∧ below d c ∧ below c e.1 := by
  obtain ⟨q, hq⟩ := exists_parentOf_of_below hb
  rcases below_of_below_parentOf hb hq with heq | hbq
  · exact Or.inl (heq ▸ hq)
  · have hqmem := hclosF e he q hq
    obtain ⟨c2, hmem, hpc, hbc2, hor⟩ := dir_chain hclosD q.length q le_rfl hqmem hbq
    refine Or.inr ⟨c2, hmem, hpc, hbc2, ?_⟩
    rcases hor with rfl | h
    · exact below_parentOf hq
    · exact below_trans h (below_parentOf hq)

lemma isEmptyDir_false_of_file {st : St} {d : Path} {e : Path × Nat}
    (he : e ∈ st.files) (hp : parentOf e.1 = some d) : isEmptyDir st d = false := by
  rw [Bool.eq_false_iff]
  intro hcon
  unfold isEmptyDir at hcon
  rw [Bool.and_eq_true] at hcon
  have h1 := List.all_eq_true.mp hcon.1 e he
  rw [hp] at h1
  simp at h1

lemma isEmptyDir_false_of_dir {st : St} {d c : Path}
    (hc : c ∈ st.dirs) (hp : parentOf c = some d) : isEmptyDir st d = false := by
  rw [Bool.eq_false_iff]
  intro hcon
  unfold isEmptyDir at hcon
  rw [Bool.and_eq_true] at hcon
  have h1 := List.all_eq_true.mp hcon.2 c hc
  rw [hp] at h1
  simp at h1

lemma isEmptyDir_true {st : St} {d : Path}
    (hfl : ∀ e ∈ st.files, parentOf e.1 ≠ some d)
    (hdl : ∀ c ∈ st.dirs, parentOf c ≠ some d) : isEmptyDir st d = true := by
  unfold isEmptyDir
  rw [Bool.and_eq_true]
  constructor
  · rw [List.all_eq_true]
    intro e he
    simpa using hfl e he
  · rw [List.all_eq_true]
    intro c hc
    simpa using hdl c hc

lemma tryRmdir_of_notEmpty {st : St} {d : Path} (h : isEmptyDir st d = false) :
    tryRmdir st d = st := by
  unfold tryRmdir fsRmdir
  rw [h, if_neg (by simp)]

lemma tryRmdir_of_empty {st : St} {d : Path} (h : isEmptyDir st d = true) :
    tryRmdir st d = ⟨st.files, st.dirs.filter (fun x => !(x == d))⟩ := by
  unfold tryRmdir fsRmdir
  rw [h, if_pos rfl]

lemma pruneLoop_nil (root : Path) (st : St) : pruneLoop root [] st = st := rfl

lemma pruneLoop_cons (root d : Path) (rest : List Path) (st : St) :
    pruneLoop root (d :: rest) st =
      if d = root then st else pruneLoop root rest (tryRmdir st d) := rfl

lemma pruneLoop_root_skip {root : Path} :
    ∀ (L1 L2 : List Path) (st : St), root ∉ L1 →
      pruneLoop root (L1 ++ root :: L2) st = pruneLoop root L1 st := by
  intro L1
  induction L1 with
  | nil =>
    intro L2 st _
    rw [List.nil_append, pruneLoop_cons, if_pos rfl, pruneLoop_nil]
  | cons d rest ih =>
    intro L2 st h
    have hd : d ≠ root := fun hc => h (hc ▸ List.mem_cons_self _ _)
    rw [List.cons_append, pruneLoop_cons, pruneLoop_cons, if_neg hd, if_neg hd]
    exact ih L2 _ (fun hm => h (List.mem_cons_of_mem _ hm))

lemma insertByDepth_perm (d : Path) (l : List Path) :
    List.Perm (insertByDepth d l) (d :: l) := by
  induction l with
  | nil => exact List.Perm.refl _
  | cons x xs ih =>
    unfold insertByDepth
    by_cases h : depth x ≤ depth d
    · rw [if_pos h]
    · rw [if_neg h]
      exact (List.Perm.cons x ih).trans (List.Perm.swap d x xs)

lemma walkBottomUp_perm (l : List Path) : List.Perm (walkBottomUp l) l := by
  induction l with
  | nil => exact List.Perm.refl _
  | cons x xs ih =>
    show List.Perm (insertByDepth x (walkBottomUp xs)) (x :: xs)
    exact (insertByDepth_perm x (walkBottomUp xs)).trans (List.Perm.cons x ih)

lemma insertByDepth_sorted (d : Path) {l : List Path}
    (hs : List.Pairwise (fun a c => depth c ≤ depth a) l) :
    List.Pairwise (fun a c => depth c ≤ depth a) (insertByDepth d l) := by
  induction l with
  | nil => simp [insertByDepth]
  | cons x xs ih =>
    unfold insertByDepth
    by_cases h : depth x ≤ depth d
    · rw [if_pos h]
      refine List.pairwise_cons.mpr ⟨?_, hs⟩
      intro y hy
      rcases List.mem_cons.mp hy with rfl | hy2
      · exact h
      · exact le_trans ((List.pairwise_cons.mp hs).1 y hy2) h
    · rw [if_neg h]
      refine List.pairwise_cons.mpr ⟨?_, ih (List.pairwise_cons.mp hs).2⟩
      intro y hy
      rcases List.mem_cons.mp ((insertByDepth_perm d xs).mem_iff.mp hy) with h2 | h2
      · subst h2
        exact le_of_lt (Nat.lt_of_not_le h)
      · exact (List.pairwise_cons.mp hs).1 y h2

lemma walkBottomUp_sorted (l : List Path) :
    List.Pairwise (fun a c => depth c ≤ depth a) (walkBottomUp l) := by
  induction l with
  | nil => simp [walkBottomUp]
  | cons x xs ih => exact insertByDepth_sorted x ih

lemma sorted_root_last {root : Path} :
    ∀ L : List Path, List.Pairwise (fun a c => depth c ≤ depth a) L →
      L.Nodup → root ∈ L → (∀ x ∈ L, x ≠ root → depth root < depth x) →
      ∃ L1, L = L1 ++ [root] ∧ root ∉ L1 := by
  intro L
  induction L with
  | nil =>
    intro _ _ h _
    simp at h
  | cons a t ih =>
    intro hp hnd hmem hmin
    by_cases ha : a = root
    · subst ha
      have ht : t = [] := by
        rcases t with _ | ⟨y, ys⟩
        · rfl
        · exfalso
          have h1 := (List.pairwise_cons.mp hp).1 y (List.mem_cons_self _ _)
          have hyne : y ≠ a := fun hc =>
            (List.nodup_cons.mp hnd).1 (hc ▸ List.mem_cons_self _ _)
          have h2 := hmin y (List.mem_cons_of_mem _ (List.mem_cons_self _ _)) hyne
          omega
      subst ht
      exact ⟨[], rfl, by simp⟩
    · have hmem2 : root ∈ t := by
        rcases List.mem_cons.mp hmem with h | h
        · exact absurd h.symm ha
        · exact h
      obtain ⟨L1, hL, hnin⟩ := ih (List.pairwise_cons.mp hp).2
        (List.nodup_cons.mp hnd).2 hmem2
        (fun x hx => hmin x (List.mem_cons_of_mem _ hx))
      refine ⟨a :: L1, by rw [List.cons_append, hL], ?_⟩
      intro hc
      rcases List.mem_cons.mp hc with h | h
      · exact ha h.symm
      · exact hnin h


lemma pruneLoop_invariant {files₀ : List (Path × Nat)} {dirs₀ : List Path} {root : Path}
    (hclosD : ∀ d2 ∈ dirs₀, ∀ q, parentOf d2 = some q → q ∈ dirs₀)
    (hclosF : ∀ e ∈ files₀, ∀ q, parentOf e.1 = some q → q ∈ dirs₀)
    (hunder : ∀ d2 ∈ dirs₀, d2 ≠ root → below root d2) :
    ∀ (L : List Path) (st : St),
      st.files = files₀ →
      List.Pairwise (fun a c => depth c ≤ depth a) L →
      L.Nodup →
      (∀ x ∈ L, x ∈ dirs₀ ∧ x ≠ root) →
      (∀ x, x ∈ st.dirs ↔ x ∈ dirs₀ ∧
        (x = root ∨ (∃ e ∈ files₀, below x e.1) ∨ x ∈ L)) →
      (pruneLoop root L st).files = files₀ ∧
      (∀ x, x ∈ (pruneLoop root L st).dirs ↔ x ∈ dirs₀ ∧
        (x = root ∨ ∃ e ∈ files₀, below x e.1)) := by
  intro L
  induction L with
  | nil =>
    intro st hf _ _ _ hdirs
    rw [pruneLoop_nil]
    refine ⟨hf, fun x => ?_⟩
    rw [hdirs x]
    simp
  | cons d rest ih =>
    intro st hf hp hnd hsub hdirs
    have hdmem : d ∈ dirs₀ := (hsub d (List.mem_cons_self _ _)).1
    have hdroot : d ≠ root := (hsub d (List.mem_cons_self _ _)).2
    have hdnin : d ∉ rest := (List.nodup_cons.mp hnd).1
    rw [pruneLoop_cons, if_neg hdroot]
    by_cases hkeep : ∃ e ∈ files₀, below d e.1
    · obtain ⟨e, he, hbe⟩ := hkeep
      have hne : isEmptyDir st d = false := by
        rcases direct_entry_of_below hclosD hclosF he hbe with hdir | hcase
        · exact isEmptyDir_false_of_file (hf.symm ▸ he) hdir
        · obtain ⟨c, hcmem, hcp, hcb, hcbe⟩ := hcase
          have hcin : c ∈ st.dirs :=
            (hdirs c).mpr ⟨hcmem, Or.inr (Or.inl ⟨e, he, hcbe⟩)⟩
          exact isEmptyDir_false_of_dir hcin hcp
      rw [tryRmdir_of_notEmpty hne]
      apply ih st hf (List.pairwise_cons.mp hp).2 (List.nodup_cons.mp hnd).2
        (fun x hx => hsub x (List.mem_cons_of_mem _ hx))
      intro x
      rw [hdirs x]
      constructor
      · rintro ⟨hx0, hx⟩
        refine ⟨hx0, ?_⟩
        rcases hx with h | h | h
        · exact Or.inl h
        · exact Or.inr (Or.inl h)
        · rcases List.mem_cons.mp h with rfl | h2
          · exact Or.inr (Or.inl ⟨e, he, hbe⟩)
          · exact Or.inr (Or.inr h2)
      · rintro ⟨hx0, hx⟩
        refine ⟨hx0, ?_⟩
        rcases hx with h | h | h
        · exact Or.inl h
        · exact Or.inr (Or.inl h)
        · exact Or.inr (Or.inr (List.mem_cons_of_mem _ h))
    · have hemp : isEmptyDir st d = true := by
        apply isEmptyDir_true
        · intro e he2 hpe
          exact hkeep ⟨e, hf ▸ he2, below_parentOf hpe⟩
        · intro c hc hpc
          have hcb : below d c := below_parentOf hpc
          rcases ((hdirs c).mp hc).2 with hcr | hcfile | hcL
          · subst hcr
            have h1 := depth_lt_of_below hcb
            have h2 := depth_lt_of_below (hunder d hdmem hdroot)
            omega
          · obtain ⟨e, he2, hbe⟩ := hcfile
            exact hkeep ⟨e, he2, below_trans hcb hbe⟩
          · have hdc := depth_lt_of_below hcb
            rcases List.mem_cons.mp hcL with rfl | hcr
            · omega
            · have := (List.pairwise_cons.mp hp).1 c hcr
              omega
      rw [tryRmdir_of_empty hemp]
      refine ih ⟨st.files, st.dirs.filter (fun y => !(y == d))⟩ hf
        (List.pairwise_cons.mp hp).2 (List.nodup_cons.mp hnd).2
        (fun x hx => hsub x (List.mem_cons_of_mem _ hx)) ?_
      intro x
      show x ∈ st.dirs.filter (fun y => !(y == d)) ↔ _
      rw [List.mem_filter]
      constructor
      · rintro ⟨hxin, hxne⟩
        have hxne2 : x ≠ d := by simpa using hxne
        obtain ⟨hx0, hx⟩ := (hdirs x).mp hxin
        refine ⟨hx0, ?_⟩
        rcases hx with h | h | h
        · exact Or.inl h
        · exact Or.inr (Or.inl h)
        · rcases List.mem_cons.mp h with rfl | h2
          · exact absurd rfl hxne2
          · exact Or.inr (Or.inr h2)
      · rintro ⟨hx0, hx⟩
        have hxne : x ≠ d := by
          rcases hx with h | h | h
          · exact fun hc => hdroot (hc.symm.trans h)
          · exact fun hc => hkeep (hc ▸ h)
          · exact fun hc => hdnin (hc ▸ h)
        refine ⟨(hdirs x).mpr ⟨hx0, ?_⟩, by simpa using hxne⟩
        rcases hx with h | h | h
        · exact Or.inl h
        · exact Or.inr (Or.inl h)
        · exact Or.inr (Or.inr (List.mem_cons_of_mem _ h))

/-- C9: the empty-directory pruning pass removes exactly the directories
strictly below the content root that have no file anywhere beneath them
(including directories that only become empty when their children are
removed, thanks to the bottom-up order), never removes the root itself, and
leaves the files untouched. -/
theorem C9_prune_empty_dirs {st : St} {root : Path}
    (hclosD : ∀ d ∈ st.dirs, ∀ q, parentOf d = some q → q ∈ st.dirs)
    (hclosF : ∀ e ∈ st.files, ∀ q, parentOf e.1 = some q → q ∈ st.dirs)
    (hroot : root ∈ st.dirs)
    (hnd : st.dirs.Nodup)
    (hunder : ∀ d ∈ st.dirs, d ≠ root → below root d) :
    (delete_empty_directories root st).files = st.files ∧
    root ∈ (delete_empty_directories root st).dirs ∧
    (∀ d, d ∈ (delete_empty_directories root st).dirs ↔
      d ∈ st.dirs ∧ (d = root ∨ ∃ e ∈ st.files, below d e.1)) := by
  have hperm := walkBottomUp_perm st.dirs
  have hsorted := walkBottomUp_sorted st.dirs
  have hndL : (walkBottomUp st.dirs).Nodup := hperm.nodup_iff.mpr hnd
  have hrootL : root ∈ walkBottomUp st.dirs := hperm.mem_iff.mpr hroot
  have hmin : ∀ x ∈ walkBottomUp st.dirs, x ≠ root → depth root < depth x :=
    fun x hx hxne => depth_lt_of_below (hunder x (hperm.mem_iff.mp hx) hxne)
  obtain ⟨L1, hL, hnin⟩ := sorted_root_last _ hsorted hndL hrootL hmin
  have hL1sub : List.Sublist L1 (walkBottomUp st.dirs) := by
    rw [hL]
    exact List.sublist_append_left L1 [root]
  have hmain : delete_empty_directories root st = pruneLoop root L1 st := by
    unfold delete_empty_directories
    rw [hL]
    exact pruneLoop_root_skip L1 [] st hnin
  have hinv := pruneLoop_invariant hclosD hclosF hunder L1 st rfl
    (hsorted.sublist hL1sub) (hndL.sublist hL1sub)
    (fun x hx => ⟨hperm.mem_iff.mp (hL1sub.subset hx),
      fun hc => hnin (hc ▸ hx)⟩)
    (fun x => by
      constructor
      · intro hx
        refine ⟨hx, ?_⟩
        by_cases hxr : x = root
        · exact Or.inl hxr
        · have hxL : x ∈ walkBottomUp st.dirs := hperm.mem_iff.mpr hx
          rw [hL] at hxL
          rcases List.mem_append.mp hxL with h | h
          · exact Or.inr (Or.inr h)
          · exact absurd (List.mem_singleton.mp h) hxr
      · rintro ⟨hx, _⟩
        exact hx)
  rw [hmain]
  refine ⟨hinv.1, ?_, hinv.2⟩
  exact (hinv.2 root).mpr ⟨hroot, Or.inl rfl⟩


/-! SafeN: preservation under the renames the passes perform. -/

lemma suffix_append_pat {s b pat : Path} : s <:+ b ↔ (s ++ pat) <:+ (b ++ pat) := by
  constructor
  · rintro ⟨c, hc⟩
    exact ⟨c, by rw [← List.append_assoc, hc]⟩
  · rintro ⟨c, hc⟩
    rw [← List.append_assoc] at hc
    exact ⟨c, List.append_cancel_right hc⟩

lemma SafeN_stem_not_dot1 {b lang : Path} (hlang : lang = langEn ∨ lang = langEng)
    (hsafe : SafeN (b ++ m1 lang)) : ¬ (['.', '1'] <:+ b) := by
  intro hc
  rcases hlang with h | h <;> subst h
  · exact hsafe.2.2.2.2.2.1 (suffix_append_pat.mp hc)
  · exact hsafe.2.2.2.2.2.2 (suffix_append_pat.mp hc)

lemma SafeN_en_stem_not_dot1 {b : Path} (hnot : ¬ (m1 langEn <:+ b ++ enSrt)) :
    ¬ (['.', '1'] <:+ b) := by
  intro hc
  apply hnot
  have h2 : (['.', '1'] ++ enSrt) <:+ (b ++ enSrt) := suffix_append_pat.mp hc
  rw [show (['.', '1'] ++ enSrt : Path) = m1 langEn from by decide] at h2
  exact h2

lemma SafeN_append_engSrt {b pat : Path} (hpat : pat ≠ [])
    (hsafe : SafeN (b ++ pat)) (hb1 : ¬ (['.', '1'] <:+ b)) : SafeN (b ++ engSrt) := by
  obtain ⟨h1, h2, h3, h4, h5, _, _⟩ := hsafe
  refine ⟨onlySuffix_append (no_occ_in_stem hpat h1) (by decide)
      (onlySuffix_of_B (by decide) (by decide)),
    onlySuffix_append (no_occ_in_stem hpat h2) (by decide)
      (onlySuffix_of_B (by decide) (by decide)),
    onlySuffix_append (no_occ_in_stem hpat h3) (by decide)
      (onlySuffix_of_B (by decide) (by decide)),
    onlySuffix_append (no_occ_in_stem hpat h4) (by decide)
      (onlySuffix_of_B (by decide) (by decide)),
    onlySuffix_append (no_occ_in_stem hpat h5) (by decide)
      (onlySuffix_of_B (by decide) (by decide)), ?_, ?_⟩
  · intro hc
    exact absurd (suffix_append_long hc (by decide)).1 (by decide)
  · intro hc
    have hlong := suffix_append_long hc (by decide)
    have htake := hlong.2
    rw [show ('.' :: '1' :: m1 langEng).take
        (('.' :: '1' :: m1 langEng).length - engSrt.length) = ['.', '1', '.', '1']
      from by decide] at htake
    exact hb1 (List.IsSuffix.trans (by decide) htake)

lemma SafeN_append_engForcedSrt {b pat : Path} (hpat : pat ≠ [])
    (hsafe : SafeN (b ++ pat)) : SafeN (b ++ engForcedSrt) := by
  obtain ⟨h1, h2, h3, h4, h5, _, _⟩ := hsafe
  refine ⟨onlySuffix_append (no_occ_in_stem hpat h1) (by decide)
      (onlySuffix_of_B (by decide) (by decide)),
    onlySuffix_append (no_occ_in_stem hpat h2) (by decide)
      (onlySuffix_of_B (by decide) (by decide)),
    onlySuffix_append (no_occ_in_stem hpat h3) (by decide)
      (onlySuffix_of_B (by decide) (by decide)),
    onlySuffix_append (no_occ_in_stem hpat h4) (by decide)
      (onlySuffix_of_B (by decide) (by decide)),
    onlySuffix_append (no_occ_in_stem hpat h5) (by decide)
      (onlySuffix_of_B (by decide) (by decide)), ?_, ?_⟩
  · intro hc
    exact absurd (suffix_append_short hc (by decide)) (by decide)
  · intro hc
    exact absurd (suffix_append_short hc (by decide)) (by decide)

lemma CreatedForm_not_m1 {p lang : Path} (hlang : lang = langEn ∨ lang = langEng)
    (hcf : CreatedForm p) : ¬ (m1 lang <:+ p) := by
  rcases hcf with ⟨b2, rfl, hb2⟩ | ⟨b2, rfl⟩
  · rcases hlang with h | h <;> subst h
    · exact not_m1en_suffix_append_engSrt b2
    · exact not_m1eng_suffix_append_engSrt hb2
  · exact not_m1_suffix_append_engForced b2 hlang

lemma CreatedForm_not_enSrt {p : Path} (hcf : CreatedForm p) : ¬ (enSrt <:+ p) := by
  rcases hcf with ⟨b2, rfl, _⟩ | ⟨b2, rfl⟩
  · intro hc
    exact absurd (suffix_append_short hc (by decide)) (by decide)
  · intro hc
    exact absurd (suffix_append_short hc (by decide)) (by decide)

lemma CreatedForm_not_ext {p : Path} (hcf : CreatedForm p) :
    ¬ (nfoExt <:+ p) ∧ ¬ (txtExt <:+ p) := by
  rcases hcf with ⟨b2, rfl, _⟩ | ⟨b2, rfl⟩
  · constructor
    · intro hc
      exact absurd (suffix_append_short hc (by decide)) (by decide)
    · intro hc
      exact absurd (suffix_append_short hc (by decide)) (by decide)
  · constructor
    · intro hc
      exact absurd (suffix_append_short hc (by decide)) (by decide)
    · intro hc
      exact absurd (suffix_append_short hc (by decide)) (by decide)


/-! Existence-based operation lemmas used by the whole-tree fold proofs. -/

lemma fsRename_ok_of_exists {st : St} {src dst : Path}
    (hex : fsExists st src = true) (hpar : parentExists st dst = true) :
    ∃ n, (src, n) ∈ st.files ∧
      fsRename st src dst = Except.ok (afterRename st src dst n) := by
  unfold fsRename
  cases hf : st.files.find? (fun e => e.1 == src) with
  | none =>
    exfalso
    obtain ⟨n, hmem⟩ := fsExists_iff.mp hex
    have := List.find?_eq_none.mp hf (src, n) hmem
    simp at this
  | some e =>
    have hkey : e.1 = src := by simpa using List.find?_some hf
    have hmem := List.mem_of_find?_eq_some hf
    refine ⟨e.2, by rw [← hkey]; exact hmem, ?_⟩
    rw [hpar]
    rfl

lemma statSize_ok_of_exists {st : St} {p : Path} (hex : fsExists st p = true) :
    ∃ m, statSize st p = Except.ok m := by
  unfold statSize
  cases hf : st.files.find? (fun e => e.1 == p) with
  | none =>
    exfalso
    obtain ⟨n, hmem⟩ := fsExists_iff.mp hex
    have := List.find?_eq_none.mp hf (p, n) hmem
    simp at this
  | some e => exact ⟨e.2, rfl⟩

lemma parentExists_of_closure {st : St} {p : Path}
    (h : ∀ q, parentOf p = some q → q ∈ st.dirs) : parentExists st p = true := by
  unfold parentExists
  cases hp : parentOf p with
  | none => rfl
  | some q =>
    simpa [List.contains] using List.elem_eq_true_of_mem (h q hp)

lemma mem_globSuffix {st : St} {suf p : Path} :
    p ∈ globSuffix st suf ↔ (∃ n, (p, n) ∈ st.files) ∧ suf <:+ p := by
  unfold globSuffix
  constructor
  · intro h
    obtain ⟨e, he, hep⟩ := List.mem_map.mp h
    obtain ⟨hmem, hsuf⟩ := List.mem_filter.mp he
    subst hep
    exact ⟨⟨e.2, hmem⟩, List.isSuffixOf_iff_suffix.mp hsuf⟩
  · rintro ⟨⟨n, hmem⟩, hsuf⟩
    exact List.mem_map.mpr ⟨(p, n),
      List.mem_filter.mpr ⟨hmem, List.isSuffixOf_iff_suffix.mpr hsuf⟩, rfl⟩

lemma globSuffix_nodup {st : St} {suf : Path} (hnd : keysNodup st) :
    (globSuffix st suf).Nodup := by
  unfold globSuffix
  have hsub : List.Sublist
      ((st.files.filter (fun e => suf.isSuffixOf e.1)).map (fun e => e.1))
      (st.files.map (fun e => e.1)) :=
    (List.filter_sublist st.files).map _
  exact List.Nodup.sublist hsub hnd

lemma fsExists_of_mem {st : St} {p : Path} {n : Nat} (h : (p, n) ∈ st.files) :
    fsExists st p = true :=
  fsExists_iff.mpr ⟨n, h⟩

lemma keysNodup_afterUnlink {st : St} {p : Path} (hnd : keysNodup st) :
    keysNodup (afterUnlink st p) :=
  List.Nodup.sublist ((List.filter_sublist st.files).map _) hnd

lemma mem_afterUnlink {st : St} {p x : Path} {m : Nat} :
    (x, m) ∈ (afterUnlink st p).files ↔ (x, m) ∈ st.files ∧ x ≠ p := by
  unfold afterUnlink
  rw [List.mem_filter]
  constructor
  · rintro ⟨h1, h2⟩
    exact ⟨h1, by simpa using h2⟩
  · rintro ⟨h1, h2⟩
    exact ⟨h1, by simpa using h2⟩


/-! Whole-tree fold lemmas for the subtitle classification pass. -/

lemma SafeN_m1 {p lang : Path} (hlang : lang = langEn ∨ lang = langEng)
    (h : SafeN p) : onlySuffix (m1 lang) p := by
  rcases hlang with hl | hl <;> subst hl
  · exact h.1
  · exact h.2.1

lemma SafeN_m2 {p lang : Path} (hlang : lang = langEn ∨ lang = langEng)
    (h : SafeN p) : onlySuffix (m2 lang) p := by
  rcases hlang with hl | hl <;> subst hl
  · exact h.2.2.1
  · exact h.2.2.2.1

lemma parents_created {dirs₀ : List Path} {b pat rep : Path}
    (hpat : noSlash pat = true) (hrep : noSlash rep = true)
    (h : ∀ q, parentOf (b ++ pat) = some q → q ∈ dirs₀) :
    ∀ q, parentOf (b ++ rep) = some q → q ∈ dirs₀ := by
  intro q hq
  apply h
  rw [parentOf_append_noSlash hpat, ← parentOf_append_noSlash hrep]
  exact hq

lemma not_dst_of_m1_suffix {x b lang : Path} (hlang : lang = langEn ∨ lang = langEng)
    (hx : m1 lang <:+ x) (hb1 : ¬ (['.', '1'] <:+ b)) : x ≠ b ++ engSrt := by
  intro hc
  subst hc
  rcases hlang with hl | hl <;> subst hl
  · exact not_m1en_suffix_append_engSrt b hx
  · exact not_m1eng_suffix_append_engSrt hb1 hx

lemma processOrig_step {σ : St} {lang b : Path} {n : Nat} {dirs₀ : List Path}
    (hlang : lang = langEn ∨ lang = langEng)
    (hdirs : σ.dirs = dirs₀) (hknd : keysNodup σ)
    (hSafe : ∀ e ∈ σ.files, SafeN e.1)
    (hPar : ∀ e ∈ σ.files, ∀ q, parentOf e.1 = some q → q ∈ dirs₀)
    (hpmem : (b ++ m1 lang, n) ∈ σ.files) :
    ∃ σ2, processOrig lang σ (b ++ m1 lang) = Except.ok σ2 ∧
      σ2.dirs = dirs₀ ∧ keysNodup σ2 ∧
      (∀ e ∈ σ2.files, SafeN e.1) ∧
      (∀ e ∈ σ2.files, ∀ q, parentOf e.1 = some q → q ∈ dirs₀) ∧
      (∀ e ∈ σ2.files, ((∃ m, (e.1, m) ∈ σ.files) ∧ e.1 ≠ b ++ m1 lang) ∨
        CreatedForm e.1) ∧
      (∀ x m, (x, m) ∈ σ.files → m1 lang <:+ x → x ≠ b ++ m1 lang →
        ∃ m2, (x, m2) ∈ σ2.files) := by
  have hpsafe : SafeN (b ++ m1 lang) := hSafe _ hpmem
  have hb1 : ¬ (['.', '1'] <:+ b) := SafeN_stem_not_dot1 hlang hpsafe
  have hsuf1 : onlySuffix (m1 lang) (b ++ m1 lang) := SafeN_m1 hlang hpsafe
  have hppar : ∀ q, parentOf (b ++ m1 lang) = some q → q ∈ dirs₀ :=
    fun q hq => hPar _ hpmem q hq
  have hpar : parentExists σ (b ++ m1 lang) = true :=
    parentExists_of_closure (fun q hq => hdirs ▸ hppar q hq)
  have hne_sd : b ++ m1 lang ≠ b ++ engSrt :=
    append_ne_append_of_ne (m1_ne_engSrt hlang)
  have hproc := processOrig_rename hlang hknd hpmem hsuf1 hpar
  have hst1dirs : (afterRename σ (b ++ m1 lang) (b ++ engSrt) n).dirs = dirs₀ := hdirs
  have hst1knd : keysNodup (afterRename σ (b ++ m1 lang) (b ++ engSrt) n) :=
    keysNodup_afterRename hknd
  have hst1safe : ∀ e ∈ (afterRename σ (b ++ m1 lang) (b ++ engSrt) n).files,
      SafeN e.1 := by
    intro e he
    rcases mem_renamedFiles_cases (by simpa using he) with hcase | hcase
    · rw [hcase.1]
      exact SafeN_append_engSrt m1_ne_nil hpsafe hb1
    · exact hSafe (e.1, e.2) (by simpa using hcase.1)
  have hst1par : ∀ e ∈ (afterRename σ (b ++ m1 lang) (b ++ engSrt) n).files,
      ∀ q, parentOf e.1 = some q → q ∈ dirs₀ := by
    intro e he
    rcases mem_renamedFiles_cases (by simpa using he) with hcase | hcase
    · rw [hcase.1]
      exact parents_created (noSlash_m1 hlang) (by decide) hppar
    · exact hPar (e.1, e.2) (by simpa using hcase.1)
  have hst1orig : ∀ e ∈ (afterRename σ (b ++ m1 lang) (b ++ engSrt) n).files,
      ((∃ m, (e.1, m) ∈ σ.files) ∧ e.1 ≠ b ++ m1 lang) ∨ CreatedForm e.1 := by
    intro e he
    rcases mem_renamedFiles_cases (by simpa using he) with hcase | hcase
    · exact Or.inr (Or.inl ⟨b, hcase.1, hb1⟩)
    · exact Or.inl ⟨⟨e.2, hcase.1⟩, hcase.2.2⟩
  have hst1pres : ∀ x m, (x, m) ∈ σ.files → m1 lang <:+ x → x ≠ b ++ m1 lang →
      (x, m) ∈ (afterRename σ (b ++ m1 lang) (b ++ engSrt) n).files := by
    intro x m hxm hxs hxne
    exact mem_renamedFiles_of_ne hxm (not_dst_of_m1_suffix hlang hxs hb1) hxne
  by_cases hex : fsExists (afterRename σ (b ++ m1 lang) (b ++ engSrt) n)
      (b ++ m2 lang) = true
  · obtain ⟨f, hfsize⟩ := statSize_ok_of_exists hex
    have hdex : fsExists (afterRename σ (b ++ m1 lang) (b ++ engSrt) n)
        (b ++ engSrt) = true :=
      fsExists_of_mem (mem_renamedFiles_dst hpmem hne_sd)
    obtain ⟨o2, hosize⟩ := statSize_ok_of_exists hdex
    obtain ⟨msib, hsibmem⟩ := fsExists_iff.mp hex
    have hsibsafe : SafeN (b ++ m2 lang) := hst1safe _ hsibmem
    have hsibne : ∀ L, L = langEn ∨ L = langEng → ∀ x, m1 L <:+ x →
        x ≠ b ++ m2 lang := by
      intro L hL x hx hc
      subst hc
      exact not_m1_suffix_append_m2 b hL hlang hx
    by_cases h1 : o2 ≤ f
    · refine ⟨afterUnlink (afterRename σ (b ++ m1 lang) (b ++ engSrt) n)
        (b ++ m2 lang), ?_, hdirs, keysNodup_afterUnlink hst1knd, ?_, ?_, ?_, ?_⟩
      · rw [hproc, hex, if_pos rfl, hfsize, hosize]
        have hred : (if o2 ≤ f then
              fsUnlink (afterRename σ (b ++ m1 lang) (b ++ engSrt) n) (b ++ m2 lang)
            else if 2 * o2 < 5 * f then
              Except.ok (afterRename σ (b ++ m1 lang) (b ++ engSrt) n)
            else
              fsRename (afterRename σ (b ++ m1 lang) (b ++ engSrt) n) (b ++ m2 lang)
                (replaceAll (b ++ m2 lang) (m2 lang) engForcedSrt)) =
            Except.ok (afterUnlink (afterRename σ (b ++ m1 lang) (b ++ engSrt) n)
              (b ++ m2 lang)) := by
          rw [if_pos h1]
          exact fsUnlink_ok hex
        exact hred
      · intro e he
        exact hst1safe e (mem_afterUnlink.mp (by simpa using he)).1
      · intro e he
        exact hst1par e (mem_afterUnlink.mp (by simpa using he)).1
      · intro e he
        exact hst1orig e (mem_afterUnlink.mp (by simpa using he)).1
      · intro x m hxm hxs hxne
        exact ⟨m, mem_afterUnlink.mpr ⟨hst1pres x m hxm hxs hxne,
          hsibne lang hlang x hxs⟩⟩
    · by_cases h2 : 2 * o2 < 5 * f
      · refine ⟨afterRename σ (b ++ m1 lang) (b ++ engSrt) n, ?_, hdirs,
          hst1knd, hst1safe, hst1par, hst1orig,
          fun x m hxm hxs hxne => ⟨m, hst1pres x m hxm hxs hxne⟩⟩
        rw [hproc, hex, if_pos rfl, hfsize, hosize]
        have hred : (if o2 ≤ f then
              fsUnlink (afterRename σ (b ++ m1 lang) (b ++ engSrt) n) (b ++ m2 lang)
            else if 2 * o2 < 5 * f then
              Except.ok (afterRename σ (b ++ m1 lang) (b ++ engSrt) n)
            else
              fsRename (afterRename σ (b ++ m1 lang) (b ++ engSrt) n) (b ++ m2 lang)
                (replaceAll (b ++ m2 lang) (m2 lang) engForcedSrt)) =
            Except.ok (afterRename σ (b ++ m1 lang) (b ++ engSrt) n) := by
          rw [if_neg h1, if_pos h2]
        exact hred
      · have hsuf2 : onlySuffix (m2 lang) (b ++ m2 lang) := SafeN_m2 hlang hsibsafe
        have hr3 : replaceAll (b ++ m2 lang) (m2 lang) engForcedSrt =
            b ++ engForcedSrt :=
          replaceAll_of_onlySuffix m2_ne_nil b hsuf2 engForcedSrt
        have hparf : parentExists (afterRename σ (b ++ m1 lang) (b ++ engSrt) n)
            (b ++ engForcedSrt) = true := by
          apply parentExists_of_closure
          intro q hq
          rw [hst1dirs]
          exact parents_created (noSlash_m2 hlang) (by decide)
            (fun q2 hq2 => hst1par _ hsibmem q2 hq2) q hq
        obtain ⟨m2v, hsibmem2, hrEq⟩ := fsRename_ok_of_exists hex hparf
        refine ⟨afterRename (afterRename σ (b ++ m1 lang) (b ++ engSrt) n)
          (b ++ m2 lang) (b ++ engForcedSrt) m2v, ?_, hdirs,
          keysNodup_afterRename hst1knd, ?_, ?_, ?_, ?_⟩
        · rw [hproc, hex, if_pos rfl, hfsize, hosize]
          have hred : (if o2 ≤ f then
                fsUnlink (afterRename σ (b ++ m1 lang) (b ++ engSrt) n) (b ++ m2 lang)
              else if 2 * o2 < 5 * f then
                Except.ok (afterRename σ (b ++ m1 lang) (b ++ engSrt) n)
              else
                fsRename (afterRename σ (b ++ m1 lang) (b ++ engSrt) n) (b ++ m2 lang)
                  (replaceAll (b ++ m2 lang) (m2 lang) engForcedSrt)) =
              Except.ok (afterRename (afterRename σ (b ++ m1 lang) (b ++ engSrt) n)
                (b ++ m2 lang) (b ++ engForcedSrt) m2v) := by
            rw [if_neg h1, if_neg h2, hr3]
            exact hrEq
          exact hred
        · intro e he
          rcases mem_renamedFiles_cases (by simpa using he) with hcase | hcase
          · rw [hcase.1]
            exact SafeN_append_engForcedSrt m2_ne_nil hsibsafe
          · exact hst1safe (e.1, e.2) (by simpa using hcase.1)
        · intro e he
          rcases mem_renamedFiles_cases (by simpa using he) with hcase | hcase
          · rw [hcase.1]
            exact parents_created (noSlash_m2 hlang) (by decide)
              (fun q hq => hst1par _ hsibmem q hq)
          · exact hst1par (e.1, e.2) (by simpa using hcase.1)
        · intro e he
          rcases mem_renamedFiles_cases (by simpa using he) with hcase | hcase
          · exact Or.inr (Or.inr ⟨b, hcase.1⟩)
          · exact hst1orig (e.1, e.2) (by simpa using hcase.1)
        · intro x m hxm hxs hxne
          refine ⟨m, mem_renamedFiles_of_ne (hst1pres x m hxm hxs hxne) ?_ ?_⟩
          · intro hc
            subst hc
            exact not_m1_suffix_append_engForced b hlang hxs
          · exact hsibne lang hlang x hxs
  · refine ⟨afterRename σ (b ++ m1 lang) (b ++ engSrt) n, ?_, hdirs,
      hst1knd, hst1safe, hst1par, hst1orig,
      fun x m hxm hxs hxne => ⟨m, hst1pres x m hxm hxs hxne⟩⟩
    rw [Bool.not_eq_true] at hex
    rw [hproc, hex]
    simp


lemma runList_cons_ok {step : St → Path → Except FsErr St} {st st2 : St} {p : Path}
    {rest : List Path} (h : step st p = Except.ok st2) :
    runList step st (p :: rest) = runList step st2 rest := by
  have hred : runList step st (p :: rest) =
      match step st p with
      | Except.ok s2 => runList step s2 rest
      | Except.error e => Except.error e := rfl
  rw [hred, h]

lemma pass1_fold {lang : Path} (hlang : lang = langEn ∨ lang = langEng)
    {dirs₀ : List Path} :
    ∀ (M : List Path) (σ : St), σ.dirs = dirs₀ → keysNodup σ →
      (∀ e ∈ σ.files, SafeN e.1) →
      (∀ e ∈ σ.files, ∀ q, parentOf e.1 = some q → q ∈ dirs₀) →
      M.Nodup →
      (∀ p ∈ M, (∃ n, (p, n) ∈ σ.files) ∧ m1 lang <:+ p) →
      ∃ σ2, runList (processOrig lang) σ M = Except.ok σ2 ∧
        σ2.dirs = dirs₀ ∧ keysNodup σ2 ∧
        (∀ e ∈ σ2.files, SafeN e.1) ∧
        (∀ e ∈ σ2.files, ∀ q, parentOf e.1 = some q → q ∈ dirs₀) ∧
        (∀ e ∈ σ2.files, ((∃ m, (e.1, m) ∈ σ.files) ∧ e.1 ∉ M) ∨
          CreatedForm e.1) := by
  intro M
  induction M with
  | nil =>
    intro σ hdirs hknd hSafe hPar _ _
    exact ⟨σ, runList_nil, hdirs, hknd, hSafe, hPar,
      fun e he => Or.inl ⟨⟨e.2, by simpa using he⟩, List.not_mem_nil e.1⟩⟩
  | cons p M' ih =>
    intro σ hdirs hknd hSafe hPar hnd hM
    obtain ⟨⟨n, hpmem⟩, hsuf⟩ := hM p (List.mem_cons_self p M')
    obtain ⟨b, hb⟩ := hsuf
    rw [← hb] at hpmem
    obtain ⟨σ1, hstep, h1dirs, h1knd, h1safe, h1par, h1orig, h1pres⟩ :=
      processOrig_step hlang hdirs hknd hSafe hPar hpmem
    have hnd' : M'.Nodup := (List.nodup_cons.mp hnd).2
    have hpnot : p ∉ M' := (List.nodup_cons.mp hnd).1
    obtain ⟨σ2, hrun, h2dirs, h2knd, h2safe, h2par, h2orig⟩ :=
      ih σ1 h1dirs h1knd h1safe h1par hnd' (by
        intro p' hp'
        obtain ⟨⟨n', hn'⟩, hs'⟩ := hM p' (List.mem_cons_of_mem p hp')
        have hne : p' ≠ b ++ m1 lang := by
          intro hc
          rw [hc, hb] at hp'
          exact hpnot hp'
        exact ⟨h1pres p' n' hn' hs' hne, hs'⟩)
    refine ⟨σ2, ?_, h2dirs, h2knd, h2safe, h2par, ?_⟩
    · have hstep2 : processOrig lang σ p = Except.ok σ1 := by
        rw [← hb]
        exact hstep
      rw [runList_cons_ok hstep2]
      exact hrun
    · intro e he
      rcases h2orig e he with ⟨⟨m, hm1⟩, hnotM'⟩ | hcf
      · rcases h1orig (e.1, m) hm1 with ⟨⟨m0, hm0⟩, hne⟩ | hcf
        · refine Or.inl ⟨⟨m0, hm0⟩, ?_⟩
          intro hc
          rcases List.mem_cons.mp hc with hc | hc
          · exact hne (hc.trans hb.symm)
          · exact hnotM' hc
        · exact Or.inr hcf
      · exact Or.inr hcf


lemma not_enSrt_suffix_append_engSrt (b : Path) : ¬ enSrt <:+ b ++ engSrt := by
  intro hc
  exact absurd (suffix_append_short hc (by decide)) (by decide)

lemma processEn_step {σ : St} {b : Path} {n : Nat} {dirs₀ : List Path}
    (hdirs : σ.dirs = dirs₀) (hknd : keysNodup σ)
    (hSafe : ∀ e ∈ σ.files, SafeN e.1)
    (hPar : ∀ e ∈ σ.files, ∀ q, parentOf e.1 = some q → q ∈ dirs₀)
    (hpmem : (b ++ enSrt, n) ∈ σ.files)
    (hnotm1 : ¬ (m1 langEn <:+ b ++ enSrt)) :
    ∃ σ2, processEn σ (b ++ enSrt) = Except.ok σ2 ∧
      σ2.dirs = dirs₀ ∧ keysNodup σ2 ∧
      (∀ e ∈ σ2.files, SafeN e.1) ∧
      (∀ e ∈ σ2.files, ∀ q, parentOf e.1 = some q → q ∈ dirs₀) ∧
      (∀ e ∈ σ2.files, ((∃ m, (e.1, m) ∈ σ.files) ∧ e.1 ≠ b ++ enSrt) ∨
        CreatedForm e.1) ∧
      (∀ x m, (x, m) ∈ σ.files → enSrt <:+ x → x ≠ b ++ enSrt →
        ∃ m2, (x, m2) ∈ σ2.files) := by
  have hpsafe : SafeN (b ++ enSrt) := hSafe _ hpmem
  have hb1 : ¬ (['.', '1'] <:+ b) := SafeN_en_stem_not_dot1 hnotm1
  have hrepl : replaceAll (b ++ enSrt) enSrt engSrt = b ++ engSrt :=
    replaceAll_of_onlySuffix (by decide) b hpsafe.2.2.2.2.1 engSrt
  have hred : processEn σ (b ++ enSrt) =
      if fsExists σ (b ++ engSrt) = true then fsUnlink σ (b ++ enSrt)
      else fsRename σ (b ++ enSrt) (b ++ engSrt) := by
    show (if fsExists σ (replaceAll (b ++ enSrt) enSrt engSrt) = true then
        fsUnlink σ (b ++ enSrt)
      else fsRename σ (b ++ enSrt) (replaceAll (b ++ enSrt) enSrt engSrt)) = _
    rw [hrepl]
  by_cases hex : fsExists σ (b ++ engSrt) = true
  · refine ⟨afterUnlink σ (b ++ enSrt), ?_, hdirs, keysNodup_afterUnlink hknd,
      ?_, ?_, ?_, ?_⟩
    · rw [hred, if_pos hex]
      exact fsUnlink_ok (fsExists_of_mem hpmem)
    · intro e he
      exact hSafe e (mem_afterUnlink.mp (by simpa using he)).1
    · intro e he
      exact hPar e (mem_afterUnlink.mp (by simpa using he)).1
    · intro e he
      obtain ⟨hmem, hne⟩ := mem_afterUnlink.mp (by simpa using he)
      exact Or.inl ⟨⟨e.2, hmem⟩, hne⟩
    · intro x m hxm _ hxne
      exact ⟨m, mem_afterUnlink.mpr ⟨hxm, hxne⟩⟩
  · have hpar : parentExists σ (b ++ engSrt) = true := by
      apply parentExists_of_closure
      intro q hq
      rw [hdirs]
      exact parents_created (by decide) (by decide)
        (fun q2 hq2 => hPar _ hpmem q2 hq2) q hq
    obtain ⟨n2, hmem2, hrEq⟩ := fsRename_ok_of_exists (fsExists_of_mem hpmem) hpar
    have hne_sd : b ++ enSrt ≠ b ++ engSrt :=
      append_ne_append_of_ne (by decide)
    refine ⟨afterRename σ (b ++ enSrt) (b ++ engSrt) n2, ?_, hdirs,
      keysNodup_afterRename hknd, ?_, ?_, ?_, ?_⟩
    · rw [hred, if_neg hex]
      exact hrEq
    · intro e he
      rcases mem_renamedFiles_cases (by simpa using he) with hcase | hcase
      · rw [hcase.1]
        exact SafeN_append_engSrt (by decide) hpsafe hb1
      · exact hSafe (e.1, e.2) (by simpa using hcase.1)
    · intro e he
      rcases mem_renamedFiles_cases (by simpa using he) with hcase | hcase
      · rw [hcase.1]
        exact parents_created (by decide) (by decide)
          (fun q hq => hPar _ hpmem q hq)
      · exact hPar (e.1, e.2) (by simpa using hcase.1)
    · intro e he
      rcases mem_renamedFiles_cases (by simpa using he) with hcase | hcase
      · exact Or.inr (Or.inl ⟨b, hcase.1, hb1⟩)
      · exact Or.inl ⟨⟨e.2, hcase.1⟩, hcase.2.2⟩
    · intro x m hxm hxs hxne
      refine ⟨m, mem_renamedFiles_of_ne hxm ?_ hxne⟩
      intro hc
      subst hc
      exact not_enSrt_suffix_append_engSrt b hxs

lemma pass2_fold {dirs₀ : List Path} :
    ∀ (M : List Path) (σ : St), σ.dirs = dirs₀ → keysNodup σ →
      (∀ e ∈ σ.files, SafeN e.1) →
      (∀ e ∈ σ.files, ∀ q, parentOf e.1 = some q → q ∈ dirs₀) →
      M.Nodup →
      (∀ p ∈ M, (∃ n, (p, n) ∈ σ.files) ∧ enSrt <:+ p ∧ ¬ (m1 langEn <:+ p)) →
      ∃ σ2, runList processEn σ M = Except.ok σ2 ∧
        σ2.dirs = dirs₀ ∧ keysNodup σ2 ∧
        (∀ e ∈ σ2.files, SafeN e.1) ∧
        (∀ e ∈ σ2.files, ∀ q, parentOf e.1 = some q → q ∈ dirs₀) ∧
        (∀ e ∈ σ2.files, ((∃ m, (e.1, m) ∈ σ.files) ∧ e.1 ∉ M) ∨
          CreatedForm e.1) := by
  intro M
  induction M with
  | nil =>
    intro σ hdirs hknd hSafe hPar _ _
    exact ⟨σ, runList_nil, hdirs, hknd, hSafe, hPar,
      fun e he => Or.inl ⟨⟨e.2, by simpa using he⟩, List.not_mem_nil e.1⟩⟩
  | cons p M' ih =>
    intro σ hdirs hknd hSafe hPar hnd hM
    obtain ⟨⟨n, hpmem⟩, hsuf, hnot1⟩ := hM p (List.mem_cons_self p M')
    obtain ⟨b, hb⟩ := hsuf
    rw [← hb] at hpmem hnot1
    obtain ⟨σ1, hstep, h1dirs, h1knd, h1safe, h1par, h1orig, h1pres⟩ :=
      processEn_step hdirs hknd hSafe hPar hpmem hnot1
    have hnd' : M'.Nodup := (List.nodup_cons.mp hnd).2
    have hpnot : p ∉ M' := (List.nodup_cons.mp hnd).1
    obtain ⟨σ2, hrun, h2dirs, h2knd, h2safe, h2par, h2orig⟩ :=
      ih σ1 h1dirs h1knd h1safe h1par hnd' (by
        intro p' hp'
        obtain ⟨⟨n', hn'⟩, hs', hm1'⟩ := hM p' (List.mem_cons_of_mem p hp')
        have hne : p' ≠ b ++ enSrt := by
          intro hc
          rw [hc, hb] at hp'
          exact hpnot hp'
        exact ⟨h1pres p' n' hn' hs' hne, hs', hm1'⟩)
    refine ⟨σ2, ?_, h2dirs, h2knd, h2safe, h2par, ?_⟩
    · have hstep2 : processEn σ p = Except.ok σ1 := by
        rw [← hb]
        exact hstep
      rw [runList_cons_ok hstep2]
      exact hrun
    · intro e he
      rcases h2orig e he with ⟨⟨m, hm1⟩, hnotM'⟩ | hcf
      · rcases h1orig (e.1, m) hm1 with ⟨⟨m0, hm0⟩, hne⟩ | hcf
        · refine Or.inl ⟨⟨m0, hm0⟩, ?_⟩
          intro hc
          rcases List.mem_cons.mp hc with hc | hc
          · exact hne (hc.trans hb.symm)
          · exact hnotM' hc
        · exact Or.inr hcf
      · exact Or.inr hcf


lemma pass3_fold {dirs₀ : List Path} :
    ∀ (M : List Path) (σ : St), σ.dirs = dirs₀ → keysNodup σ →
      (∀ e ∈ σ.files, SafeN e.1) →
      (∀ e ∈ σ.files, ∀ q, parentOf e.1 = some q → q ∈ dirs₀) →
      M.Nodup →
      (∀ p ∈ M, ∃ n, (p, n) ∈ σ.files) →
      ∃ σ2, runList (fun s p => fsUnlink s p) σ M = Except.ok σ2 ∧
        σ2.dirs = dirs₀ ∧ keysNodup σ2 ∧
        (∀ e ∈ σ2.files, SafeN e.1) ∧
        (∀ e ∈ σ2.files, ∀ q, parentOf e.1 = some q → q ∈ dirs₀) ∧
        (∀ e ∈ σ2.files, (∃ m, (e.1, m) ∈ σ.files) ∧ e.1 ∉ M) := by
  intro M
  induction M with
  | nil =>
    intro σ hdirs hknd hSafe hPar _ _
    exact ⟨σ, runList_nil, hdirs, hknd, hSafe, hPar,
      fun e he => ⟨⟨e.2, by simpa using he⟩, List.not_mem_nil e.1⟩⟩
  | cons p M' ih =>
    intro σ hdirs hknd hSafe hPar hnd hM
    obtain ⟨n, hpmem⟩ := hM p (List.mem_cons_self p M')
    have hstep : fsUnlink σ p = Except.ok (afterUnlink σ p) :=
      fsUnlink_ok (fsExists_of_mem hpmem)
    have hnd' : M'.Nodup := (List.nodup_cons.mp hnd).2
    have hpnot : p ∉ M' := (List.nodup_cons.mp hnd).1
    obtain ⟨σ2, hrun, h2dirs, h2knd, h2safe, h2par, h2orig⟩ :=
      ih (afterUnlink σ p) hdirs (keysNodup_afterUnlink hknd)
        (fun e he => hSafe e (mem_afterUnlink.mp (by simpa using he)).1)
        (fun e he => hPar e (mem_afterUnlink.mp (by simpa using he)).1)
        hnd' (by
          intro p' hp'
          obtain ⟨n', hn'⟩ := hM p' (List.mem_cons_of_mem p hp')
          refine ⟨n', mem_afterUnlink.mpr ⟨hn', ?_⟩⟩
          intro hc
          rw [hc] at hp'
          exact hpnot hp')
    refine ⟨σ2, ?_, h2dirs, h2knd, h2safe, h2par, ?_⟩
    · rw [runList_cons_ok hstep]
      exact hrun
    · intro e he
      obtain ⟨⟨m, hm1⟩, hnotM'⟩ := h2orig e he
      obtain ⟨hmem, hne⟩ := mem_afterUnlink.mp hm1
      refine ⟨⟨m, hmem⟩, ?_⟩
      intro hc
      rcases List.mem_cons.mp hc with hc | hc
      · exact hne hc
      · exact hnotM' hc

/-! The pruning pass: list-level facts needed for the idempotence analysis. -/

lemma tryRmdir_dirs_sublist (st : St) (d : Path) :
    List.Sublist (tryRmdir st d).dirs st.dirs := by
  by_cases h : isEmptyDir st d = true
  · rw [tryRmdir_of_empty h]
    exact List.filter_sublist st.dirs
  · rw [Bool.not_eq_true] at h
    rw [tryRmdir_of_notEmpty h]

lemma pruneLoop_dirs_sublist (root : Path) :
    ∀ (L : List Path) (st : St), List.Sublist (pruneLoop root L st).dirs st.dirs := by
  intro L
  induction L with
  | nil =>
    intro st
    exact List.Sublist.refl _
  | cons d rest ih =>
    intro st
    rw [pruneLoop_cons]
    by_cases h : d = root
    · rw [if_pos h]
    · rw [if_neg h]
      exact (ih (tryRmdir st d)).trans (tryRmdir_dirs_sublist st d)

lemma pruneLoop_id {root : Path} :
    ∀ (L : List Path) (st : St),
      (∀ d ∈ L, d ≠ root → isEmptyDir st d = false) →
      pruneLoop root L st = st := by
  intro L
  induction L with
  | nil =>
    intro st _
    rfl
  | cons d rest ih =>
    intro st h
    rw [pruneLoop_cons]
    by_cases hd : d = root
    · rw [if_pos hd]
    · rw [if_neg hd, tryRmdir_of_notEmpty (h d (List.mem_cons_self _ _) hd)]
      exact ih st (fun x hx hxne => h x (List.mem_cons_of_mem _ hx) hxne)

lemma prune_characterization {st : St} {root : Path}
    (hclosD : ∀ d ∈ st.dirs, ∀ q, parentOf d = some q → q ∈ st.dirs)
    (hclosF : ∀ e ∈ st.files, ∀ q, parentOf e.1 = some q → q ∈ st.dirs)
    (hroot : root ∈ st.dirs)
    (hnd : st.dirs.Nodup)
    (hunder : ∀ d ∈ st.dirs, d ≠ root → below root d) :
    (delete_empty_directories root st).files = st.files ∧
    root ∈ (delete_empty_directories root st).dirs ∧
    (∀ d, d ∈ (delete_empty_directories root st).dirs ↔
      d ∈ st.dirs ∧ (d = root ∨ ∃ e ∈ st.files, below d e.1)) := by
  have hperm := walkBottomUp_perm st.dirs
  have hsorted := walkBottomUp_sorted st.dirs
  have hndL : (walkBottomUp st.dirs).Nodup := hperm.nodup_iff.mpr hnd
  have hrootL : root ∈ walkBottomUp st.dirs := hperm.mem_iff.mpr hroot
  have hmin : ∀ x ∈ walkBottomUp st.dirs, x ≠ root → depth root < depth x :=
    fun x hx hxne => depth_lt_of_below (hunder x (hperm.mem_iff.mp hx) hxne)
  obtain ⟨L1, hL, hnin⟩ := sorted_root_last _ hsorted hndL hrootL hmin
  have hL1sub : List.Sublist L1 (walkBottomUp st.dirs) := by
    rw [hL]
    exact List.sublist_append_left L1 [root]
  have hmain : delete_empty_directories root st = pruneLoop root L1 st := by
    unfold delete_empty_directories
    rw [hL]
    exact pruneLoop_root_skip L1 [] st hnin
  have hinv := pruneLoop_invariant hclosD hclosF hunder L1 st rfl
    (hsorted.sublist hL1sub) (hndL.sublist hL1sub)
    (fun x hx => ⟨hperm.mem_iff.mp (hL1sub.subset hx),
      fun hc => hnin (hc ▸ hx)⟩)
    (fun x => by
      constructor
      · intro hx
        refine ⟨hx, ?_⟩
        by_cases hxr : x = root
        · exact Or.inl hxr
        · have hxL : x ∈ walkBottomUp st.dirs := hperm.mem_iff.mpr hx
          rw [hL] at hxL
          rcases List.mem_append.mp hxL with h | h
          · exact Or.inr (Or.inr h)
          · exact absurd (List.mem_singleton.mp h) hxr
      · rintro ⟨hx, _⟩
        exact hx)
  rw [hmain]
  refine ⟨hinv.1, ?_, hinv.2⟩
  exact (hinv.2 root).mpr ⟨hroot, Or.inl rfl⟩


/-! Composition of the four passes: one full run normalizes the tree. -/

lemma run_normalizes {root : Path} {st : St}
    (hknd : keysNodup st)
    (hSafe : ∀ e ∈ st.files, SafeN e.1)
    (hParF : ∀ e ∈ st.files, ∀ q, parentOf e.1 = some q → q ∈ st.dirs)
    (hclosD : ∀ d ∈ st.dirs, ∀ q, parentOf d = some q → q ∈ st.dirs)
    (hroot : root ∈ st.dirs)
    (hndD : st.dirs.Nodup)
    (hunder : ∀ d ∈ st.dirs, d ≠ root → below root d) :
    ∃ st1, mainRun root st = Except.ok st1 ∧
      (∀ e ∈ st1.files, ¬ (m1 langEn <:+ e.1) ∧ ¬ (m1 langEng <:+ e.1) ∧
        ¬ (enSrt <:+ e.1) ∧ ¬ (nfoExt <:+ e.1) ∧ ¬ (txtExt <:+ e.1)) ∧
      (∀ e ∈ st1.files, ∀ q, parentOf e.1 = some q → q ∈ st.dirs) ∧
      root ∈ st1.dirs ∧
      (∀ d, d ∈ st1.dirs ↔ d ∈ st.dirs ∧ (d = root ∨ ∃ e ∈ st1.files, below d e.1)) := by
  obtain ⟨σa, hruna, hadirs, haknd, hasafe, hapar, haorig⟩ :=
    pass1_fold (Or.inl rfl) (globSuffix st (m1 langEn)) st rfl hknd hSafe hParF
      (globSuffix_nodup hknd) (fun p hp => mem_globSuffix.mp hp)
  have hA1 : renameForcedLang langEn st = Except.ok σa := by
    unfold renameForcedLang
    exact hruna
  have hano1 : ∀ e ∈ σa.files, ¬ (m1 langEn <:+ e.1) := by
    intro e he hc
    rcases haorig e he with ⟨⟨m, hm⟩, hnot⟩ | hcf
    · exact hnot (mem_globSuffix.mpr ⟨⟨m, hm⟩, hc⟩)
    · exact CreatedForm_not_m1 (Or.inl rfl) hcf hc
  obtain ⟨σb, hrunb, hbdirs, hbknd, hbsafe, hbpar, hborig⟩ :=
    pass1_fold (Or.inr rfl) (globSuffix σa (m1 langEng)) σa hadirs haknd hasafe hapar
      (globSuffix_nodup haknd) (fun p hp => mem_globSuffix.mp hp)
  have hA2 : renameForcedLang langEng σa = Except.ok σb := by
    unfold renameForcedLang
    exact hrunb
  have hA : rename_forced_subs st = Except.ok σb := by
    unfold rename_forced_subs
    rw [hA1]
    exact hA2
  have hbno2 : ∀ e ∈ σb.files, ¬ (m1 langEng <:+ e.1) := by
    intro e he hc
    rcases hborig e he with ⟨⟨m, hm⟩, hnot⟩ | hcf
    · exact hnot (mem_globSuffix.mpr ⟨⟨m, hm⟩, hc⟩)
    · exact CreatedForm_not_m1 (Or.inr rfl) hcf hc
  have hbno1 : ∀ e ∈ σb.files, ¬ (m1 langEn <:+ e.1) := by
    intro e he hc
    rcases hborig e he with ⟨⟨m, hm⟩, _⟩ | hcf
    · exact hano1 (e.1, m) hm hc
    · exact CreatedForm_not_m1 (Or.inl rfl) hcf hc
  obtain ⟨σc, hrunc, hcdirs, hcknd, hcsafe, hcpar, hcorig⟩ :=
    pass2_fold (globSuffix σb enSrt) σb hbdirs hbknd hbsafe hbpar
      (globSuffix_nodup hbknd) (by
        intro p hp
        obtain ⟨⟨n, hn⟩, hsuf⟩ := mem_globSuffix.mp hp
        exact ⟨⟨n, hn⟩, hsuf, hbno1 (p, n) hn⟩)
  have hB : rename_en_to_eng_subs σb = Except.ok σc := by
    unfold rename_en_to_eng_subs
    exact hrunc
  have hcno3 : ∀ e ∈ σc.files, ¬ (enSrt <:+ e.1) := by
    intro e he hc
    rcases hcorig e he with ⟨⟨m, hm⟩, hnot⟩ | hcf
    · exact hnot (mem_globSuffix.mpr ⟨⟨m, hm⟩, hc⟩)
    · exact CreatedForm_not_enSrt hcf hc
  have hcno1 : ∀ e ∈ σc.files, ¬ (m1 langEn <:+ e.1) := by
    intro e he hc
    rcases hcorig e he with ⟨⟨m, hm⟩, _⟩ | hcf
    · exact hbno1 (e.1, m) hm hc
    · exact CreatedForm_not_m1 (Or.inl rfl) hcf hc
  have hcno2 : ∀ e ∈ σc.files, ¬ (m1 langEng <:+ e.1) := by
    intro e he hc
    rcases hcorig e he with ⟨⟨m, hm⟩, _⟩ | hcf
    · exact hbno2 (e.1, m) hm hc
    · exact CreatedForm_not_m1 (Or.inr rfl) hcf hc
  obtain ⟨σd, hrund, hddirs, hdknd, hdsafe, hdpar, hdorig⟩ :=
    pass3_fold (globSuffix σc nfoExt) σc hcdirs hcknd hcsafe hcpar
      (globSuffix_nodup hcknd) (fun p hp => (mem_globSuffix.mp hp).1)
  have hdno4 : ∀ e ∈ σd.files, ¬ (nfoExt <:+ e.1) := by
    intro e he hc
    obtain ⟨⟨m, hm⟩, hnot⟩ := hdorig e he
    exact hnot (mem_globSuffix.mpr ⟨⟨m, hm⟩, hc⟩)
  obtain ⟨σe, hrune, hedirs, heknd, hesafe, hepar, heorig⟩ :=
    pass3_fold (globSuffix σd txtExt) σd hddirs hdknd hdsafe hdpar
      (globSuffix_nodup hdknd) (fun p hp => (mem_globSuffix.mp hp).1)
  have hC : delete_nfo_and_txt_files σc = Except.ok σe := by
    unfold delete_nfo_and_txt_files
    rw [hrund]
    exact hrune
  have heno5 : ∀ e ∈ σe.files, ¬ (txtExt <:+ e.1) := by
    intro e he hc
    obtain ⟨⟨m, hm⟩, hnot⟩ := heorig e he
    exact hnot (mem_globSuffix.mpr ⟨⟨m, hm⟩, hc⟩)
  have hememc : ∀ e ∈ σe.files, ∃ m, (e.1, m) ∈ σc.files := by
    intro e he
    obtain ⟨⟨m, hm⟩, _⟩ := heorig e he
    obtain ⟨⟨m2, hm2⟩, _⟩ := hdorig (e.1, m) hm
    exact ⟨m2, hm2⟩
  have heno4 : ∀ e ∈ σe.files, ¬ (nfoExt <:+ e.1) := by
    intro e he
    obtain ⟨⟨m, hm⟩, _⟩ := heorig e he
    exact hdno4 (e.1, m) hm
  have heno1 : ∀ e ∈ σe.files, ¬ (m1 langEn <:+ e.1) := by
    intro e he
    obtain ⟨m, hm⟩ := hememc e he
    exact hcno1 (e.1, m) hm
  have heno2 : ∀ e ∈ σe.files, ¬ (m1 langEng <:+ e.1) := by
    intro e he
    obtain ⟨m, hm⟩ := hememc e he
    exact hcno2 (e.1, m) hm
  have heno3 : ∀ e ∈ σe.files, ¬ (enSrt <:+ e.1) := by
    intro e he
    obtain ⟨m, hm⟩ := hememc e he
    exact hcno3 (e.1, m) hm
  have hchar := prune_characterization
    (by
      rw [hedirs]
      exact hclosD)
    (by
      intro e he q hq
      rw [hedirs]
      exact hepar e he q hq)
    (by
      rw [hedirs]
      exact hroot)
    (by
      rw [hedirs]
      exact hndD)
    (by
      rw [hedirs]
      exact hunder)
  refine ⟨delete_empty_directories root σe, ?_, ?_, ?_, hchar.2.1, ?_⟩
  · unfold mainRun
    simp only [hA, hB, hC]
  · intro e he
    rw [hchar.1] at he
    exact ⟨heno1 e he, heno2 e he, heno3 e he, heno4 e he, heno5 e he⟩
  · intro e he q hq
    rw [hchar.1] at he
    exact hepar e he q hq
  · intro d
    rw [hchar.2.2 d, hedirs, ← hchar.1]


/-- In a state whose directory list is exactly the root plus the directories
with some file beneath them, every non-root directory is non-empty. -/
lemma nonempty_dirs_of_char {st1 : St} {root : Path} {dirs₀ : List Path}
    (hclosD₀ : ∀ d ∈ dirs₀, ∀ q, parentOf d = some q → q ∈ dirs₀)
    (hunder : ∀ d ∈ dirs₀, d ≠ root → below root d)
    (hpar1 : ∀ e ∈ st1.files, ∀ q, parentOf e.1 = some q → q ∈ dirs₀)
    (hchar : ∀ d, d ∈ st1.dirs ↔ d ∈ dirs₀ ∧
      (d = root ∨ ∃ e ∈ st1.files, below d e.1)) :
    ∀ d ∈ st1.dirs, d ≠ root → isEmptyDir st1 d = false := by
  have hclosD1 : ∀ c ∈ st1.dirs, ∀ q, parentOf c = some q → q ∈ st1.dirs := by
    intro c hc q hq
    obtain ⟨hc0, hcase⟩ := (hchar c).mp hc
    have hq0 : q ∈ dirs₀ := hclosD₀ c hc0 q hq
    rcases hcase with rfl | ⟨e, he, hb⟩
    · exfalso
      have hlt := parentOf_length_lt hq
      have hqne : q ≠ c := by
        intro hcq
        rw [hcq] at hlt
        exact lt_irrefl _ hlt
      have hbq := hunder q hq0 hqne
      have hlen := hbq.length_le
      simp only [List.length_append, List.length_singleton] at hlen
      omega
    · exact (hchar q).mpr ⟨hq0, Or.inr ⟨e, he, below_trans (below_parentOf hq) hb⟩⟩
  have hclosF1 : ∀ e ∈ st1.files, ∀ q, parentOf e.1 = some q → q ∈ st1.dirs := by
    intro e he q hq
    exact (hchar q).mpr ⟨hpar1 e he q hq, Or.inr ⟨e, he, below_parentOf hq⟩⟩
  intro d hd hdne
  obtain ⟨_, hcase⟩ := (hchar d).mp hd
  rcases hcase with rfl | ⟨e, he, hbe⟩
  · exact absurd rfl hdne
  · rcases direct_entry_of_below hclosD1 hclosF1 he hbe with hp | ⟨c, hc, hpc, _, _⟩
    · exact isEmptyDir_false_of_file he hp
    · exact isEmptyDir_false_of_dir hc hpc

/-- A state in which no file matches any discovery pattern and no non-root
directory is empty is a fixed point of the whole pipeline. -/
lemma mainRun_fixed {root : Path} {st1 : St}
    (hnone : ∀ e ∈ st1.files, ¬ (m1 langEn <:+ e.1) ∧ ¬ (m1 langEng <:+ e.1) ∧
      ¬ (enSrt <:+ e.1) ∧ ¬ (nfoExt <:+ e.1) ∧ ¬ (txtExt <:+ e.1))
    (hne : ∀ d ∈ st1.dirs, d ≠ root → isEmptyDir st1 d = false) :
    mainRun root st1 = Except.ok st1 := by
  have hA1 : renameForcedLang langEn st1 = Except.ok st1 := by
    unfold renameForcedLang
    rw [globSuffix_eq_nil (fun e he => (hnone e he).1)]
    exact runList_nil
  have hA2 : renameForcedLang langEng st1 = Except.ok st1 := by
    unfold renameForcedLang
    rw [globSuffix_eq_nil (fun e he => (hnone e he).2.1)]
    exact runList_nil
  have hA : rename_forced_subs st1 = Except.ok st1 := by
    unfold rename_forced_subs
    rw [hA1]
    exact hA2
  have hB : rename_en_to_eng_subs st1 = Except.ok st1 := by
    unfold rename_en_to_eng_subs
    rw [globSuffix_eq_nil (fun e he => (hnone e he).2.2.1)]
    exact runList_nil
  have hC : delete_nfo_and_txt_files st1 = Except.ok st1 := by
    unfold delete_nfo_and_txt_files
    rw [globSuffix_eq_nil (fun e he => (hnone e he).2.2.2.1), runList_nil]
    show runList (fun s p => fsUnlink s p) st1 (globSuffix st1 txtExt) =
      Except.ok st1
    rw [globSuffix_eq_nil (fun e he => (hnone e he).2.2.2.2)]
    exact runList_nil
  have hD : delete_empty_directories root st1 = st1 := by
    unfold delete_empty_directories
    exact pruneLoop_id (walkBottomUp st1.dirs) st1
      (fun d hd hdne => hne d ((walkBottomUp_perm st1.dirs).mem_iff.mp hd) hdne)
  unfold mainRun
  simp only [hA, hB, hC, hD]


/-- C6 counterexample: the pipeline is NOT idempotent on every tree.  On the
single file "R/N.1.1.eng.srt" the first run replaces the leftmost occurrence
of ".1.eng.srt", producing "R/N.1.eng.srt" — which still matches the
variant-1 discovery pattern, so the second run renames it again (to
"R/N.eng.srt"): the second run changes the filesystem. -/
theorem C6_counterexample :
    mainRun exRoot ⟨[(['R', '/', 'N', '.', '1'] ++ m1 langEng, 5)], [exRoot]⟩ =
      Except.ok ⟨[(['R', '/', 'N'] ++ m1 langEng, 5)], [exRoot]⟩ ∧
    mainRun exRoot ⟨[(['R', '/', 'N'] ++ m1 langEng, 5)], [exRoot]⟩ =
      Except.ok ⟨[(['R', '/', 'N'] ++ engSrt, 5)], [exRoot]⟩ ∧
    (Except.ok ⟨[(['R', '/', 'N'] ++ engSrt, 5)], [exRoot]⟩ : Except FsErr St) ≠
      Except.ok ⟨[(['R', '/', 'N'] ++ m1 langEng, 5)], [exRoot]⟩ := by
  refine ⟨by decide, by decide, by decide⟩

/-- C6 (amended): on a well-formed tree — unique file paths, every subtitle
marker occurring in a file name only as its whole final suffix with no stem
ending in ".1" directly before a ".1.<tag>.srt" marker, file parents and
directory parents all present among the directories, and every directory
other than the content root lying strictly below it — one full pipeline run
normalizes the tree: its result is a fixed point of main, so a second run
performs no filesystem change.  Without the well-formedness proviso the
claim fails (see the counterexample). -/
theorem C6_pipeline_idempotent {root : Path} {st st1 : St}
    (hknd : keysNodup st)
    (hSafe : ∀ e ∈ st.files, SafeN e.1)
    (hParF : ∀ e ∈ st.files, ∀ q, parentOf e.1 = some q → q ∈ st.dirs)
    (hclosD : ∀ d ∈ st.dirs, ∀ q, parentOf d = some q → q ∈ st.dirs)
    (hroot : root ∈ st.dirs)
    (hndD : st.dirs.Nodup)
    (hunder : ∀ d ∈ st.dirs, d ≠ root → below root d)
    (h1 : mainRun root st = Except.ok st1) :
    mainRun root st1 = Except.ok st1 := by
  obtain ⟨st1b, hrun, hnone, hpar1, hroot1, hchar⟩ :=
    run_normalizes hknd hSafe hParF hclosD hroot hndD hunder
  rw [hrun] at h1
  injection h1 with hst1
  subst hst1
  exact mainRun_fixed hnone (nonempty_dirs_of_char hclosD hunder hpar1 hchar)

/-- Witness for the amended C6 at a concrete well-formed tree: one variant-1
file "R/x.1.en.srt" under the root "R"; the first run renames it to
"R/x.eng.srt" and the second run is the identity. -/
theorem C6_pipeline_idempotent_witness :
    mainRun exRoot ⟨[(['R', '/', 'x'] ++ m1 langEn, 5)], [exRoot]⟩ =
      Except.ok ⟨[(['R', '/', 'x'] ++ engSrt, 5)], [exRoot]⟩ ∧
    mainRun exRoot ⟨[(['R', '/', 'x'] ++ engSrt, 5)], [exRoot]⟩ =
      Except.ok ⟨[(['R', '/', 'x'] ++ engSrt, 5)], [exRoot]⟩ :=
  ⟨by decide,
    @C6_pipeline_idempotent exRoot ⟨[(['R', '/', 'x'] ++ m1 langEn, 5)], [exRoot]⟩
      ⟨[(['R', '/', 'x'] ++ engSrt, 5)], [exRoot]⟩
      (by
        unfold keysNodup
        decide)
      (by
        intro e he
        rw [List.mem_singleton] at he
        subst he
        exact ⟨onlySuffix_of_B (by decide) (by decide),
          onlySuffix_of_B (by decide) (by decide),
          onlySuffix_of_B (by decide) (by decide),
          onlySuffix_of_B (by decide) (by decide),
          onlySuffix_of_B (by decide) (by decide),
          by decide, by decide⟩)
      (by
        intro e he q hq
        rw [List.mem_singleton] at he
        subst he
        have hq2 : some exRoot = some q := by
          rw [← hq]
          decide
        injection hq2 with h
        rw [← h]
        exact List.mem_singleton.mpr rfl)
      (by
        intro d hd q hq
        rw [List.mem_singleton] at hd
        subst hd
        have hq2 : (none : Option Path) = some q := by
          rw [← hq]
          decide
        exact Option.noConfusion hq2)
      (by decide)
      (by decide)
      (by
        intro d hd hdne
        rw [List.mem_singleton] at hd
        exact absurd hd hdne)
      (by decide)⟩


/-! Closed witnesses: each claim theorem applied at a concrete state. -/

lemma closure_of_check {D : List Path}
    (h : D.all (fun d => match parentOf d with
      | none => true
      | some q => D.contains q) = true) :
    ∀ d ∈ D, ∀ q, parentOf d = some q → q ∈ D := by
  intro d hd q hq
  have h2 := List.all_eq_true.mp h d hd
  rw [hq] at h2
  exact List.mem_of_elem_eq_true (by simpa [List.contains] using h2)

lemma file_closure_of_check {F : List (Path × Nat)} {D : List Path}
    (h : F.all (fun e => match parentOf e.1 with
      | none => true
      | some q => D.contains q) = true) :
    ∀ e ∈ F, ∀ q, parentOf e.1 = some q → q ∈ D := by
  intro e he q hq
  have h2 := List.all_eq_true.mp h e he
  rw [hq] at h2
  exact List.mem_of_elem_eq_true (by simpa [List.contains] using h2)

/-- Witness for the amended C2 at sizes 1000 and 400 (ratio exactly 0.4):
the variant-2 file ends up renamed to "R/m.eng.forced.srt". -/
theorem C2_amended_ratio_exact_forced_witness :
    rename_forced_subs ⟨[(exStem ++ m1 langEn, 1000), (exStem ++ m2 langEn, 400)],
        [exRoot]⟩ =
      Except.ok ⟨[(exStem ++ engSrt, 1000), (exStem ++ engForcedSrt, 400)],
        [exRoot]⟩ :=
  ((@C2_amended_ratio_exact_forced
      ⟨[(exStem ++ m1 langEn, 1000), (exStem ++ m2 langEn, 400)], [exRoot]⟩
      langEn exStem 1000 400 (Or.inl rfl)
      (by
        unfold keysNodup
        decide)
      (by decide)
      (onlySuffix_of_B (by decide) (by decide))
      (onlySuffix_of_B (by decide) (by decide))
      (by decide) (by decide) (by decide) (by decide) (by decide)
      (by decide)).1).trans (by decide)

/-- Witness for C3 at sizes 999 and 1000: the variant-2 file is deleted and
only "R/m.eng.srt" remains. -/
theorem C3_not_smaller_deleted_witness :
    rename_forced_subs ⟨[(exStem ++ m1 langEn, 999), (exStem ++ m2 langEn, 1000)],
        [exRoot]⟩ =
      Except.ok ⟨[(exStem ++ engSrt, 999)], [exRoot]⟩ :=
  ((@C3_not_smaller_deleted
      ⟨[(exStem ++ m1 langEn, 999), (exStem ++ m2 langEn, 1000)], [exRoot]⟩
      langEn exStem 999 1000 (Or.inl rfl)
      (by
        unfold keysNodup
        decide)
      (by decide)
      (onlySuffix_of_B (by decide) (by decide))
      (by decide) (by decide) (by decide) (by decide) (by decide)
      (by decide)).1).trans (by decide)

/-- Witness for C4 at sizes 1000 and 999 (ratio 0.999): the variant-2 file
is left untouched at its original path. -/
theorem C4_ambiguous_band_untouched_witness :
    rename_forced_subs ⟨[(exStem ++ m1 langEn, 1000), (exStem ++ m2 langEn, 999)],
        [exRoot]⟩ =
      Except.ok ⟨[(exStem ++ engSrt, 1000), (exStem ++ m2 langEn, 999)],
        [exRoot]⟩ :=
  ((@C4_ambiguous_band_untouched
      ⟨[(exStem ++ m1 langEn, 1000), (exStem ++ m2 langEn, 999)], [exRoot]⟩
      langEn exStem 1000 999 (Or.inl rfl)
      (by
        unfold keysNodup
        decide)
      (by decide)
      (onlySuffix_of_B (by decide) (by decide))
      (by decide) (by decide) (by decide) (by decide) (by decide)
      (by decide) (by decide)).1).trans (by decide)

/-- Witness for C5: a lone "R/m.1.en.srt" of size 7 is renamed to
"R/m.eng.srt" and nothing else happens. -/
theorem C5_no_sibling_rename_only_witness :
    rename_forced_subs ⟨[(exStem ++ m1 langEn, 7)], [exRoot]⟩ =
      Except.ok ⟨[(exStem ++ engSrt, 7)], [exRoot]⟩ :=
  ((@C5_no_sibling_rename_only
      ⟨[(exStem ++ m1 langEn, 7)], [exRoot]⟩
      langEn exStem 7 (Or.inl rfl)
      (by
        unfold keysNodup
        decide)
      (by decide)
      (onlySuffix_of_B (by decide) (by decide))
      (by decide) (by decide) (by decide) (by decide)).1).trans (by decide)

/-- Witness for C10: "R/m.1.en.srt" of size 50 is renamed onto an existing
"R/m.eng.srt" of size 77, silently replacing it. -/
theorem C10_rename_overwrites_existing_witness :
    rename_forced_subs ⟨[(exStem ++ m1 langEn, 50), (exStem ++ engSrt, 77)],
        [exRoot]⟩ =
      Except.ok ⟨[(exStem ++ engSrt, 50)], [exRoot]⟩ ∧
    rename_forced_subs ⟨[(exStem ++ m1 langEn, 1000), (exStem ++ m2 langEn, 400),
        (exStem ++ engForcedSrt, 123)], [exRoot]⟩ =
      Except.ok ⟨[(exStem ++ engSrt, 1000), (exStem ++ engForcedSrt, 400)],
        [exRoot]⟩ :=
  ⟨(((@C10_rename_overwrites_existing
      ⟨[(exStem ++ m1 langEn, 50), (exStem ++ engSrt, 77)], [exRoot]⟩
      langEn exStem 50 (Or.inl rfl)
      (by
        unfold keysNodup
        decide)
      (by decide)
      (onlySuffix_of_B (by decide) (by decide))
      (by decide) (by decide) (by decide)).1 77 (by decide) (by decide)).1).trans
    (by decide),
   (((@C10_rename_overwrites_existing
      ⟨[(exStem ++ m1 langEn, 1000), (exStem ++ m2 langEn, 400),
        (exStem ++ engForcedSrt, 123)], [exRoot]⟩
      langEn exStem 1000 (Or.inl rfl)
      (by
        unfold keysNodup
        decide)
      (by decide)
      (onlySuffix_of_B (by decide) (by decide))
      (by decide) (by decide) (by decide)).2 400 123 (by decide) (by decide)
      (onlySuffix_of_B (by decide) (by decide)) (by decide) (by decide)).1).trans
    (by decide)⟩

/-- Witness for C8 (delete branch): "R/m.en.srt" of size 7 coexisting with
"R/m.eng.srt" of size 9 is deleted; the sibling keeps its size. -/
theorem C8_en_to_eng_normalization_witness :
    rename_en_to_eng_subs ⟨[(exStem ++ enSrt, 7), (exStem ++ engSrt, 9)],
        [exRoot]⟩ =
      Except.ok ⟨[(exStem ++ engSrt, 9)], [exRoot]⟩ :=
  (((@C8_en_to_eng_normalization
      ⟨[(exStem ++ enSrt, 7), (exStem ++ engSrt, 9)], [exRoot]⟩
      exStem 7
      (by
        unfold keysNodup
        decide)
      (by decide)
      (onlySuffix_of_B (by decide) (by decide))
      (by decide) (by decide)).1 9 (by decide)).1).trans (by decide)

/-- Witness for C9: under root "R" with file "R/k/x" and directories
"R/k", "R/a", "R/a/b", pruning keeps the files, keeps the root and "R/k"
(which has a file beneath it), and removes the empty "R/a". -/
theorem C9_prune_empty_dirs_witness :
    (delete_empty_directories exRoot
        ⟨[(['R', '/', 'k', '/', 'x'], 3)],
          [exRoot, ['R', '/', 'k'], ['R', '/', 'a'],
            ['R', '/', 'a', '/', 'b']]⟩).files =
      [(['R', '/', 'k', '/', 'x'], 3)] ∧
    exRoot ∈ (delete_empty_directories exRoot
        ⟨[(['R', '/', 'k', '/', 'x'], 3)],
          [exRoot, ['R', '/', 'k'], ['R', '/', 'a'],
            ['R', '/', 'a', '/', 'b']]⟩).dirs ∧
    ['R', '/', 'k'] ∈ (delete_empty_directories exRoot
        ⟨[(['R', '/', 'k', '/', 'x'], 3)],
          [exRoot, ['R', '/', 'k'], ['R', '/', 'a'],
            ['R', '/', 'a', '/', 'b']]⟩).dirs ∧
    ['R', '/', 'a'] ∉ (delete_empty_directories exRoot
        ⟨[(['R', '/', 'k', '/', 'x'], 3)],
          [exRoot, ['R', '/', 'k'], ['R', '/', 'a'],
            ['R', '/', 'a', '/', 'b']]⟩).dirs := by
  have h := @C9_prune_empty_dirs
    ⟨[(['R', '/', 'k', '/', 'x'], 3)],
      [exRoot, ['R', '/', 'k'], ['R', '/', 'a'], ['R', '/', 'a', '/', 'b']]⟩
    exRoot
    (closure_of_check (by decide))
    (file_closure_of_check (by decide))
    (by decide) (by decide) (by decide)
  refine ⟨h.1, h.2.1,
    (h.2.2 _).mpr ⟨by decide,
      Or.inr ⟨(['R', '/', 'k', '/', 'x'], 3), by decide, by decide⟩⟩, ?_⟩
  intro hc
  rcases (h.2.2 _).mp hc with ⟨_, heq | ⟨e, he, hb⟩⟩
  · exact absurd heq (by decide)
  · rw [List.mem_singleton] at he
    subst he
    exact absurd hb (by decide)

/-- Witness for C7: a concrete non-empty rmdir failure is swallowed; a
rename failure in pass 1, in pass 2 and an unlink failure in pass 3 each
propagate to main; and with all three passes succeeding main returns the
pruned state. -/
theorem C7_only_rmdir_failure_swallowed_witness :
    tryRmdir ⟨[(['R', '/', 'a', '/', 'x'], 3)], [exRoot, ['R', '/', 'a']]⟩
        ['R', '/', 'a'] =
      ⟨[(['R', '/', 'a', '/', 'x'], 3)], [exRoot, ['R', '/', 'a']]⟩ ∧
    mainRun exRoot ⟨[(['R', '/', 'd'] ++ m1 langEn ++ ['/', 'x'] ++ m1 langEn, 10)],
        [exRoot, ['R', '/', 'd'] ++ m1 langEn]⟩ =
      Except.error (FsErr.renameNoParent
        (['R', '/', 'd'] ++ m1 langEn ++ ['/', 'x'] ++ m1 langEn)
        (['R', '/', 'd'] ++ engSrt ++ ['/', 'x'] ++ engSrt)) ∧
    mainRun exRoot ⟨[(['R', '/', 'd'] ++ enSrt ++ ['/', 'x'] ++ enSrt, 10)],
        [exRoot, ['R', '/', 'd'] ++ enSrt]⟩ =
      Except.error (FsErr.renameNoParent
        (['R', '/', 'd'] ++ enSrt ++ ['/', 'x'] ++ enSrt)
        (['R', '/', 'd'] ++ engSrt ++ ['/', 'x'] ++ engSrt)) ∧
    mainRun exRoot ⟨[(['R', '/', 'a'] ++ nfoExt, 1), (['R', '/', 'a'] ++ nfoExt, 2)],
        [exRoot]⟩ =
      Except.error (FsErr.missing (['R', '/', 'a'] ++ nfoExt)) ∧
    mainRun exRoot ⟨[(['R', '/', 'k', '/', 'x'], 3)],
        [exRoot, ['R', '/', 'k'], ['R', '/', 'a']]⟩ =
      Except.ok (delete_empty_directories exRoot
        ⟨[(['R', '/', 'k', '/', 'x'], 3)],
          [exRoot, ['R', '/', 'k'], ['R', '/', 'a']]⟩) :=
  ⟨(C7_only_rmdir_failure_swallowed.1
      ⟨[(['R', '/', 'a', '/', 'x'], 3)], [exRoot, ['R', '/', 'a']]⟩
      ['R', '/', 'a'] (FsErr.notEmpty ['R', '/', 'a']) (by decide)).2,
    C7_only_rmdir_failure_swallowed.2.1 exRoot
      ⟨[(['R', '/', 'd'] ++ m1 langEn ++ ['/', 'x'] ++ m1 langEn, 10)],
        [exRoot, ['R', '/', 'd'] ++ m1 langEn]⟩
      (FsErr.renameNoParent
        (['R', '/', 'd'] ++ m1 langEn ++ ['/', 'x'] ++ m1 langEn)
        (['R', '/', 'd'] ++ engSrt ++ ['/', 'x'] ++ engSrt)) (by decide),
    C7_only_rmdir_failure_swallowed.2.2.1 exRoot
      ⟨[(['R', '/', 'd'] ++ enSrt ++ ['/', 'x'] ++ enSrt, 10)],
        [exRoot, ['R', '/', 'd'] ++ enSrt]⟩
      ⟨[(['R', '/', 'd'] ++ enSrt ++ ['/', 'x'] ++ enSrt, 10)],
        [exRoot, ['R', '/', 'd'] ++ enSrt]⟩
      (FsErr.renameNoParent
        (['R', '/', 'd'] ++ enSrt ++ ['/', 'x'] ++ enSrt)
        (['R', '/', 'd'] ++ engSrt ++ ['/', 'x'] ++ engSrt))
      (by decide) (by decide),
    C7_only_rmdir_failure_swallowed.2.2.2.1 exRoot
      ⟨[(['R', '/', 'a'] ++ nfoExt, 1), (['R', '/', 'a'] ++ nfoExt, 2)], [exRoot]⟩
      ⟨[(['R', '/', 'a'] ++ nfoExt, 1), (['R', '/', 'a'] ++ nfoExt, 2)], [exRoot]⟩
      ⟨[(['R', '/', 'a'] ++ nfoExt, 1), (['R', '/', 'a'] ++ nfoExt, 2)], [exRoot]⟩
      (FsErr.missing (['R', '/', 'a'] ++ nfoExt))
      (by decide) (by decide) (by decide),
    C7_only_rmdir_failure_swallowed.2.2.2.2 exRoot
      ⟨[(['R', '/', 'k', '/', 'x'], 3)], [exRoot, ['R', '/', 'k'], ['R', '/', 'a']]⟩
      ⟨[(['R', '/', 'k', '/', 'x'], 3)], [exRoot, ['R', '/', 'k'], ['R', '/', 'a']]⟩
      ⟨[(['R', '/', 'k', '/', 'x'], 3)], [exRoot, ['R', '/', 'k'], ['R', '/', 'a']]⟩
      ⟨[(['R', '/', 'k', '/', 'x'], 3)], [exRoot, ['R', '/', 'k'], ['R', '/', 'a']]⟩
      (by decide) (by decide) (by decide)⟩

end CleanMedia
